import Mathlib

/-!
# Verification of the AI events crawler (`ai_events_crawler.py`)

A shallow embedding of the event-catalog logic of `AIEventsCrawler`:

* events are modelled as insertion-ordered dictionaries (`List (String × JVal)`),
  exactly the JSON objects the Python code manipulates;
* `generate_event_id` is modelled with a full executable MD5 over the UTF-8
  bytes of the Python f-string key, as in the source;
* dictionary access `event[k]` is fallible (`Except PyErr`), modelling Python's
  `KeyError`;
* `list.sort(key=lambda x: x['date'])` is modelled by the stable `List.mergeSort`
  on the extracted date keys (CPython's timsort is stable, and a stable sort's
  output is uniquely determined by the key order and the input order).
-/
/-- Python exceptions that the modelled code can raise. -/
inductive PyErr where
  | keyError : PyErr
  | typeError : PyErr
  | fileNotFoundError : PyErr
  | unicodeDecodeError : PyErr

deriving DecidableEq, Repr

/-- JSON scalar values stored in an event record.  The program only ever
writes strings and non-negative integers (dates, names, attendee counts and
the rank `#`), so the model restricts numbers to `Nat`. -/
inductive JVal where
  | str : String → JVal
  | int : Nat → JVal

deriving DecidableEq, Repr

/-- An event record: a Python `dict` as an insertion-ordered association list,
the exact shape produced by `json.load` on the persisted catalog. -/
abbrev Event := List (String × JVal)

/-! ## MD5 (as used by `hashlib.md5(key.encode()).hexdigest()`)

A byte-level executable MD5 over `Nat`, with 32-bit arithmetic made explicit
by `% 4294967296`. -/
/-- 32-bit left rotation. -/
def rotl32 (x n : Nat) : Nat :=
  ((x <<< n) ||| (x >>> (32 - n))) % 4294967296

/-- The 64 per-round shift amounts of MD5. -/
def md5shift : List Nat :=
  [7, 12, 17, 22, 7, 12, 17, 22, 7, 12, 17, 22, 7, 12, 17, 22,
   5, 9, 14, 20, 5, 9, 14, 20, 5, 9, 14, 20, 5, 9, 14, 20,
   4, 11, 16, 23, 4, 11, 16, 23, 4, 11, 16, 23, 4, 11, 16, 23,
   6, 10, 15, 21, 6, 10, 15, 21, 6, 10, 15, 21, 6, 10, 15, 21]

/-- The 64 MD5 sine-derived constants. -/
def md5K : List Nat :=
  [0xd76aa478, 0xe8c7b756, 0x242070db, 0xc1bdceee,
   0xf57c0faf, 0x4787c62a, 0xa8304613, 0xfd469501,
   0x698098d8, 0x8b44f7af, 0xffff5bb1, 0x895cd7be,
   0x6b901122, 0xfd987193, 0xa679438e, 0x49b40821,
   0xf61e2562, 0xc040b340, 0x265e5a51, 0xe9b6c7aa,
   0xd62f105d, 0x02441453, 0xd8a1e681, 0xe7d3fbc8,
   0x21e1cde6, 0xc33707d6, 0xf4d50d87, 0x455a14ed,
   0xa9e3e905, 0xfcefa3f8, 0x676f02d9, 0x8d2a4c8a,
   0xfffa3942, 0x8771f681, 0x6d9d6122, 0xfde5380c,
   0xa4beea44, 0x4bdecfa9, 0xf6bb4b60, 0xbebfbc70,
   0x289b7ec6, 0xeaa127fa, 0xd4ef3085, 0x04881d05,
   0xd9d4d039, 0xe6db99e5, 0x1fa27cf8, 0xc4ac5665,
   0xf4292244, 0x432aff97, 0xab9423a7, 0xfc93a039,
   0x655b59c3, 0x8f0ccc92, 0xffeff47d, 0x85845dd1,
   0x6fa87e4f, 0xfe2ce6e0, 0xa3014314, 0x4e0811a1,
   0xf7537e82, 0xbd3af235, 0x2ad7d2bb, 0xeb86d391]

/-- Little-endian byte decomposition, `k` bytes. -/
def leBytes : Nat → Nat → List Nat
  | 0, _ => []
  | k + 1, x => (x % 256) :: leBytes k (x / 256)

/-- The sixteen little-endian 32-bit words of one 64-byte chunk. -/
def md5words (chunk : List Nat) : List Nat :=
  (List.range 16).map fun j =>
    chunk.getD (4 * j) 0 + 256 * chunk.getD (4 * j + 1) 0 +
      65536 * chunk.getD (4 * j + 2) 0 + 16777216 * chunk.getD (4 * j + 3) 0

/-- One MD5 round on the state `(a, b, c, d)`. -/
def md5round (m : List Nat) (st : Nat × Nat × Nat × Nat) (i : Nat) :
    Nat × Nat × Nat × Nat :=
  let (a, b, c, d) := st
  let fg : Nat × Nat :=
    if i < 16 then ((b &&& c) ||| ((b ^^^ 0xffffffff) &&& d), i)
    else if i < 32 then ((d &&& b) ||| ((d ^^^ 0xffffffff) &&& c), (5 * i + 1) % 16)
    else if i < 48 then (b ^^^ c ^^^ d, (3 * i + 5) % 16)
    else (c ^^^ (b ||| (d ^^^ 0xffffffff)), (7 * i) % 16)
  let tmp := (fg.1 + a + md5K.getD i 0 + m.getD fg.2 0) % 4294967296
  (d, (b + rotl32 tmp (md5shift.getD i 0)) % 4294967296, b, c)

/-- Process one 64-byte chunk. -/
def md5compress (st : Nat × Nat × Nat × Nat) (chunk : List Nat) :
    Nat × Nat × Nat × Nat :=
  let m := md5words chunk
  let (a, b, c, d) := (List.range 64).foldl (md5round m) st
  ((st.1 + a) % 4294967296, (st.2.1 + b) % 4294967296,
   (st.2.2.1 + c) % 4294967296, (st.2.2.2 + d) % 4294967296)

/-- Fold `md5compress` over the padded message, 64 bytes at a time.  The
structural fuel argument (instantiated with the message length, an upper
bound on the chunk count) keeps the recursion kernel-reducible. -/
def md5loop : Nat → Nat × Nat × Nat × Nat → List Nat → Nat × Nat × Nat × Nat
  | _, st, [] => st
  | 0, st, _ => st
  | fuel + 1, st, b :: rest =>
    md5loop fuel (md5compress st (b :: rest.take 63)) (rest.drop 63)

/-- MD5 padding: `0x80`, zeros to 56 mod 64, then the 64-bit little-endian
bit length. -/
def md5pad (msg : List Nat) : List Nat :=
  let padLen := (64 + 56 - (msg.length + 1) % 64) % 64
  msg ++ [0x80] ++ List.replicate padLen 0 ++
    leBytes 8 ((msg.length * 8) % 18446744073709551616)

/-- The sixteen digest bytes of a byte message. -/
def md5bytes (msg : List Nat) : List Nat :=
  let padded := md5pad msg
  let (a, b, c, d) :=
    md5loop padded.length (0x67452301, 0xefcdab89, 0x98badcfe, 0x10325476) padded
  leBytes 4 a ++ leBytes 4 b ++ leBytes 4 c ++ leBytes 4 d

/-- One lowercase hex digit. -/
def hexDigit (n : Nat) : Char :=
  if n < 10 then Char.ofNat (48 + n) else Char.ofNat (87 + n)

/-- Lowercase hex string of a byte list, as `hexdigest()` produces. -/
def toHexString (bytes : List Nat) : String :=
  String.mk (bytes.flatMap fun b => [hexDigit (b / 16), hexDigit (b % 16)])

/-- UTF-8 encoding of one character, as `str.encode()` produces. -/
def utf8Encode (c : Char) : List Nat :=
  let n := c.toNat
  if n < 0x80 then [n]
  else if n < 0x800 then [0xc0 ||| (n >>> 6), 0x80 ||| (n &&& 0x3f)]
  else if n < 0x10000 then
    [0xe0 ||| (n >>> 12), 0x80 ||| ((n >>> 6) &&& 0x3f), 0x80 ||| (n &&& 0x3f)]
  else
    [0xf0 ||| (n >>> 18), 0x80 ||| ((n >>> 12) &&& 0x3f),
     0x80 ||| ((n >>> 6) &&& 0x3f), 0x80 ||| (n &&& 0x3f)]

/-- UTF-8 bytes of a string (`key.encode()`). -/
def strBytes (s : String) : List Nat :=
  s.data.flatMap utf8Encode

/-- `hashlib.md5(s.encode()).hexdigest()`. -/
def md5hex (s : String) : String :=
  toHexString (md5bytes (strBytes s))

/-! ## Event dictionaries -/
/-- Python `str()` as applied by an f-string to a JSON scalar. -/
def jvalStr : JVal → String
  | .str s => s
  | .int n => toString n

/-- `event[k]`: first value stored under `k`, raising `KeyError` when absent. -/
def getKey (e : Event) (k : String) : Except PyErr JVal :=
  match e.lookup k with
  | some v => .ok v
  | none => .error .keyError

/-- `event[k] = v`: overwrite the value at `k` in place (Python dicts keep the
key's original position), or append the pair when `k` is absent. -/
def setKey (e : Event) (k : String) (v : JVal) : Event :=
  match e with
  | [] => [(k, v)]
  | (k', v') :: rest => if k' = k then (k, v) :: rest else (k', v') :: setKey rest k v

/-! ## Identity / dedup engine (`generate_event_id`, `event_exists`, `add_event`) -/
/-- The raw f-string key `f"{event['name']}_{event['date']}_{event['venue']}"`,
with Python's left-to-right evaluation of the three subscripts. -/
def eventKey (e : Event) : Except PyErr String := do
  let n ← getKey e "name"
  let d ← getKey e "date"
  let v ← getKey e "venue"
  pure (jvalStr n ++ "_" ++ jvalStr d ++ "_" ++ jvalStr v)

/-- `AIEventsCrawler.generate_event_id`: MD5 hexdigest of the UTF-8 key. -/
def generate_event_id (e : Event) : Except PyErr String := do
  let key ← eventKey e
  pure (md5hex key)

/-- The list comprehension `[self.generate_event_id(e) for e in self.events]`,
evaluated left to right with the first `KeyError` propagating. -/
def catalogIds : List Event → Except PyErr (List String)
  | [] => .ok []
  | e :: rest => do
    let i ← generate_event_id e
    let ids ← catalogIds rest
    pure (i :: ids)

/-- `AIEventsCrawler.event_exists`: membership of the candidate's fingerprint
among the fingerprints of the current catalog. -/
def event_exists (e : Event) (events : List Event) : Except PyErr Bool := do
  let eventId ← generate_event_id e
  let existingIds ← catalogIds events
  pure (existingIds.contains eventId)

/-- `AIEventsCrawler.add_event`: append the candidate and return `true` iff
its fingerprint is not already present; otherwise leave the catalog unchanged
and return `false`. -/
def add_event (events : List Event) (e : Event) : Except PyErr (List Event × Bool) := do
  if (← event_exists e events) then pure (events, false)
  else pure (events ++ [e], true)

/-- The merge loop of `crawl_major_ai_events`: fold `add_event` over the
candidate list, counting the additions. -/
def crawlEvents (events : List Event) : List Event → Except PyErr (List Event × Nat)
  | [] => .ok (events, 0)
  | e :: rest => do
    let (evs, added) ← add_event events e
    let (evs', n) ← crawlEvents evs rest
    pure (evs', if added then n + 1 else n)

/-! ## Sorting and ranking (`run`) -/
/-- Whether a JSON scalar is a string. -/
def JVal.isStr : JVal → Bool
  | .str _ => true
  | .int _ => false

/-- Underlying string of a scalar (defaulting integers). -/
def JVal.strVal : JVal → String
  | .str s => s
  | .int _ => ""

/-- Underlying integer of a scalar (defaulting strings). -/
def JVal.intVal : JVal → Nat
  | .int n => n
  | .str _ => 0

/-- Python `<=` on two date keys of the same type; comparisons across types
raise `TypeError` and are modelled as `false` (they never occur in the sorted
branches below). -/
def jvalLe : JVal → JVal → Bool
  | .str a, .str b => a ≤ b
  | .int a, .int b => a ≤ b
  | _, _ => false

/-- Key extraction for one event, `lambda x: x['date']` paired with the
event itself. -/
def dateKeyed (e : Event) : Except PyErr (JVal × Event) := do
  let d ← getKey e "date"
  pure (d, e)

/-- Comparison of two keyed events by their string date keys. -/
def leStr (p q : JVal × Event) : Bool := p.1.strVal ≤ q.1.strVal

/-- Comparison of two keyed events by their integer date keys. -/
def leInt (p q : JVal × Event) : Bool := p.1.intVal ≤ q.1.intVal

/-- `self.events.sort(key=lambda x: x['date'])`.  CPython extracts every key
first (so a missing `'date'` raises `KeyError` and leaves the list unchanged),
then runs the stable timsort.  Keys of one uniform type sort by that type's
order; a catalog mixing string and integer dates necessarily compares a string
with an integer at some point and raises `TypeError`. -/
def sortEvents (events : List Event) : Except PyErr (List Event) := do
  let keyed ← events.mapM dateKeyed
  if keyed.all (fun p => p.1.isStr) then
    pure ((keyed.mergeSort leStr).map (·.2))
  else if keyed.all (fun p => !p.1.isStr) then
    pure ((keyed.mergeSort leInt).map (·.2))
  else
    .error .typeError

/-- `for idx, event in enumerate(self.events, 1): event['#'] = idx`. -/
def assignRanks (events : List Event) : List Event :=
  events.enum.map fun p => setKey p.2 "#" (.int (p.1 + 1))

/-- `AIEventsCrawler.run`, parametrized by the candidate list the adapters
produce: merge every candidate into the catalog, sort by date, assign dense
1-based ranks.  The result is the catalog handed to `save_data`.  (The summary
line printed afterwards reads `self.events[0]` and would raise `IndexError`
on an empty catalog, but only after the catalog was persisted.) -/
def runWith (candidates : List Event) (events : List Event) :
    Except PyErr (List Event) := do
  let (merged, _newCount) ← crawlEvents events candidates
  let sorted ← sortEvents merged
  pure (assignRanks sorted)

instance excDecEq {e : Type} {a : Type} [DecidableEq e] [DecidableEq a] :
    DecidableEq (Except e a) := fun x y =>
  match x, y with
  | .ok u, .ok v =>
    if h : u = v then isTrue (by rw [h]) else isFalse (by simp [h])
  | .error u, .error v =>
    if h : u = v then isTrue (by rw [h]) else isFalse (by simp [h])
  | .ok _, .error _ => isFalse (by simp)
  | .error _, .ok _ => isFalse (by simp)

/-! ## Concrete events used by witnesses and counterexamples -/
/-- The curated "ICML 2025" entry (identity-relevant fields of the source's
curated record). -/
def evICML : Event :=
  [("name", .str "ICML 2025"), ("format", .str "Hybrid"),
   ("venue", .str "Vancouver, Canada"), ("date", .str "2025-07-15")]

/-- The spec's example scraped variant: same date, name and venue differing
only in case and incidental whitespace. -/
def evIcmlScraped : Event :=
  [("name", .str " icml 2025 "), ("venue", .str "  Vancouver, Canada  "),
   ("date", .str "2025-07-15")]

/-- An event whose name contains the fingerprint separator. -/
def evSepName : Event :=
  [("name", .str "A_B"), ("date", .str "C"), ("venue", .str "x")]

/-- A different event whose key string coincides with `evSepName`'s. -/
def evSepDate : Event :=
  [("name", .str "A"), ("date", .str "B_C"), ("venue", .str "x")]

/-- The recursive form of `enumerate(self.events, 1)` rank assignment. -/
def rankFrom (n : Nat) : List Event → List Event
  | [] => []
  | e :: rest => setKey e "#" (.int (n + 1)) :: rankFrom (n + 1) rest

/-- The chronological order the persisted catalog satisfies: both events
carry a date and the dates compare `<=` in Python's order. -/
def dateLe (a b : Event) : Prop :=
  ∃ da db, getKey a "date" = .ok da ∧ getKey b "date" = .ok db ∧
    jvalLe da db = true

/-- An event with no `'date'` key at all. -/
def evNoDate : Event :=
  [("name", .str "Mystery Event"), ("venue", .str "TBD")]

/-- The curated "NeurIPS 2025" entry (identity-relevant fields). -/
def evNeurIPS : Event :=
  [("name", .str "NeurIPS 2025"), ("format", .str "Hybrid"),
   ("venue", .str "Vancouver, Canada"), ("date", .str "2025-12-08")]

/-! ## The catalog serialization (`json.dump(self.events, f, indent=2,
ensure_ascii=False)`)

The printer reproduces CPython's output byte for byte for catalogs of
events whose strings contain no control characters (which CPython would
escape as `\uXXXX`; no string the program handles contains one). -/
/-- The opening curly bracket character. -/
def lcurl : Char := Char.ofNat 123

/-- The closing curly bracket character. -/
def rcurl : Char := Char.ofNat 125

/-- JSON escaping of one character with `ensure_ascii=False`: only the quote
and the backslash need escaping for control-free strings; everything else,
including non-ASCII text, is written raw. -/
def escapeOne (c : Char) : List Char :=
  if c = '\\' then ['\\', '\\']
  else if c = '\"' then ['\\', '\"']
  else [c]

/-- JSON string body escaping. -/
def escapeString (s : String) : List Char :=
  s.data.flatMap escapeOne

/-- Decimal digits of a positive number, least significant first (the fuel
argument keeps the recursion structural). -/
def natDigitsRev : Nat → Nat → List Char
  | _, 0 => []
  | 0, _ => []
  | fuel + 1, m => Char.ofNat (48 + m % 10) :: natDigitsRev fuel (m / 10)

/-- Decimal representation of a natural number. -/
def printNat (n : Nat) : List Char :=
  if n = 0 then [Char.ofNat 48] else (natDigitsRev n n).reverse

/-- One serialized JSON scalar. -/
def printJVal : JVal → List Char
  | .str v => '\"' :: (escapeString v ++ ['\"'])
  | .int n => printNat n

/-- One serialized `"key": value` pair. -/
def printPair (p : String × JVal) : List Char :=
  '\"' :: (escapeString p.1 ++ ['\"', ':', ' '] ++ printJVal p.2)

/-- Join pieces with a separator. -/
def joinSep (sep : List Char) : List (List Char) → List Char
  | [] => []
  | [x] => x
  | x :: y :: rest => x ++ sep ++ joinSep sep (y :: rest)

/-- One serialized event object at nesting depth 1 (fields indented four
spaces, closing bracket two). -/
def printEvent (e : Event) : List Char :=
  match e with
  | [] => [lcurl, rcurl]
  | _ =>
    [lcurl, '\n'] ++
      joinSep [',', '\n'] (e.map fun p => [' ', ' ', ' ', ' '] ++ printPair p) ++
      ['\n', ' ', ' ', rcurl]

/-- The whole file as characters: a JSON array of event objects, `indent=2`. -/
def dumpChars (events : List Event) : List Char :=
  match events with
  | [] => ['[', ']']
  | _ =>
    ['[', '\n'] ++
      joinSep [',', '\n'] (events.map fun e => [' ', ' '] ++ printEvent e) ++
      ['\n', ']']

/-- The whole file: a JSON array of event objects, `indent=2`. -/
def dumpCatalog (events : List Event) : String :=
  String.mk (dumpChars events)

/-! ## `save_data` and `os.path.dirname` -/
/-- The prefix of a path up to and including its last slash (empty when the
path has no slash), the split `posixpath.dirname` starts from. -/
def headPart : List Char → List Char
  | [] => []
  | c :: rest =>
    if ('/' : Char) ∈ rest then c :: headPart rest
    else if c = '/' then [c]
    else []

/-- `posixpath.dirname`: the head up to the last slash; a head that is
neither empty nor all slashes loses its trailing slashes. -/
def dirname (p : String) : String :=
  let head := headPart p.data
  if head = [] then ""
  else if head.all (fun c => c = '/') then String.mk head
  else String.mk ((head.reverse.dropWhile (fun c => c = '/')).reverse)

/-- `AIEventsCrawler.save_data`: `os.makedirs(os.path.dirname(self.data_file),
exist_ok=True)` raises `FileNotFoundError` when the dirname is empty (a bare
filename); otherwise, on an idealized always-writable filesystem, the catalog
is serialized and written.  The returned string is the file's contents. -/
def save_data (dataFile : String) (events : List Event) : Except PyErr String :=
  if dirname dataFile = "" then .error .fileNotFoundError
  else .ok (dumpCatalog events)

/-! ## The catalog parser (`json.load`)

Models `json.load` on the documents the program itself persists: an array
of flat objects with string keys and string-or-integer values.  (CPython's
parser accepts further JSON — floats, booleans, nesting — that the program
never writes; such documents are outside this model.)  Whitespace is
accepted anywhere CPython accepts it.  Only the two loops take fuel; all
other recursion is structural, so the parser evaluates inside the kernel. -/
/-- JSON whitespace. -/
def isWs (c : Char) : Bool :=
  c = ' ' || c = '\n' || c = '\t' || c = '\r'

/-- Drop leading whitespace. -/
def skipWs : List Char → List Char
  | [] => []
  | c :: rest => if isWs c then skipWs rest else c :: rest

/-- Parse a string body after the opening quote, undoing the `\"` and `\\`
escapes the dump emits; yields the decoded characters and the input after
the closing quote. -/
def parseStringBody : List Char → Option (List Char × List Char)
  | [] => none
  | c :: rest =>
    if c = '\"' then some ([], rest)
    else if c = '\\' then
      match rest with
      | [] => none
      | e :: rest2 =>
        if e = '\"' || e = '\\' then
          (parseStringBody rest2).map fun pr => (e :: pr.1, pr.2)
        else none
    else (parseStringBody rest).map fun pr => (c :: pr.1, pr.2)

/-- Split off a maximal run of decimal digits. -/
def takeDigits : List Char → List Char × List Char
  | [] => ([], [])
  | c :: rest =>
    if c.isDigit then
      let pr := takeDigits rest
      (c :: pr.1, pr.2)
    else ([], c :: rest)

/-- Value of a digit run, most significant first. -/
def digitsToNat (ds : List Char) : Nat :=
  ds.foldl (fun acc c => acc * 10 + (c.toNat - 48)) 0

/-- Parse one scalar value (string or non-negative integer). -/
def parseJVal (l : List Char) : Option (JVal × List Char) :=
  match l with
  | [] => none
  | c :: rest =>
    if c = '\"' then
      (parseStringBody rest).map fun pr => (.str (String.mk pr.1), pr.2)
    else if c.isDigit then
      let pr := takeDigits (c :: rest)
      some (.int (digitsToNat pr.1), pr.2)
    else none

/-- Parse one `"key": value` pair (leading whitespace allowed). -/
def parsePair (l : List Char) : Option ((String × JVal) × List Char) :=
  match skipWs l with
  | [] => none
  | c :: rest =>
    if c = '\"' then
      match parseStringBody rest with
      | none => none
      | some (kchars, rem) =>
        match skipWs rem with
        | [] => none
        | c2 :: rem2 =>
          if c2 = ':' then
            (parseJVal (skipWs rem2)).map fun pr => ((String.mk kchars, pr.1), pr.2)
          else none
    else none

/-- After one pair: `, pair ...` repeated until the closing bracket. -/
def parsePairsRest : Nat → List Char → Option (Event × List Char)
  | 0, _ => none
  | fuel + 1, l =>
    match skipWs l with
    | [] => none
    | c :: rest =>
      if c = rcurl then some ([], rest)
      else if c = ',' then
        match parsePair rest with
        | none => none
        | some (p, rem) =>
          match parsePairsRest fuel rem with
          | none => none
          | some (ps, rem2) => some (p :: ps, rem2)
      else none

/-- Parse one event object. -/
def parseObject (fuel : Nat) (l : List Char) : Option (Event × List Char) :=
  match skipWs l with
  | [] => none
  | c :: rest =>
    if c = lcurl then
      match skipWs rest with
      | [] => none
      | c2 :: rest2 =>
        if c2 = rcurl then some ([], rest2)
        else
          match parsePair (c2 :: rest2) with
          | none => none
          | some (p, rem) =>
            match parsePairsRest fuel rem with
            | none => none
            | some (ps, rem2) => some (p :: ps, rem2)
    else none

/-- After one array item: `, item ...` repeated until the closing bracket. -/
def parseItemsRest (fuel : Nat) : Nat → List Char → Option (List Event × List Char)
  | 0, _ => none
  | itemFuel + 1, l =>
    match skipWs l with
    | [] => none
    | c :: rest =>
      if c = ']' then some ([], rest)
      else if c = ',' then
        match parseObject fuel rest with
        | none => none
        | some (e, rem) =>
          match parseItemsRest fuel itemFuel rem with
          | none => none
          | some (es, rem2) => some (e :: es, rem2)
      else none

/-- Parse a whole catalog document. -/
def parseCatalogChars (fuel : Nat) (l : List Char) : Option (List Event) :=
  match skipWs l with
  | [] => none
  | c :: rest =>
    if c = '[' then
      match skipWs rest with
      | [] => none
      | c2 :: rest2 =>
        if c2 = ']' then
          match skipWs rest2 with
          | [] => some []
          | _ :: _ => none
        else
          match parseObject fuel (c2 :: rest2) with
          | none => none
          | some (e, rem) =>
            match parseItemsRest fuel fuel rem with
            | none => none
            | some (es, rem2) =>
              match skipWs rem2 with
              | [] => some (e :: es)
              | _ :: _ => none
    else none

/-- `json.load` on the persisted catalog file. -/
def parseCatalog (s : String) : Option (List Event) :=
  parseCatalogChars (s.length + 1) s.data

/-- How `load_existing_data` ended. -/
inductive LoadStatus where
  | fresh : LoadStatus
  | loaded : LoadStatus
  | corrupt : LoadStatus

deriving DecidableEq, Repr

/-- Whether the input's first character cannot extend a digit run. -/
def headNotDigit : List Char → Prop
  | [] => True
  | c :: _ => c.isDigit = false

/-- The serialized text that follows the first pair of an object: each
further pair behind its `,`-newline-indent separator, then the closing
text. -/
def pairsTail (closing : List Char) : List (String × JVal) → List Char
  | [] => closing
  | p :: ps =>
    ',' :: '\n' :: ' ' :: ' ' :: ' ' :: ' ' :: (printPair p ++ pairsTail closing ps)

/-- The serialized text that follows the first object of the array. -/
def itemsTail (closing : List Char) : List Event → List Char
  | [] => closing
  | e :: es => ',' :: '\n' :: ' ' :: ' ' :: (printEvent e ++ itemsTail closing es)

/-- A string with no control characters (CPython would escape those as
`\uXXXX`, which the serialization model does not reproduce). -/
def ctrlFree (s : String) : Prop := ∀ c ∈ s.data, 32 ≤ c.toNat

instance ctrlFreeDec (s : String) : Decidable (ctrlFree s) :=
  List.decidableBAll _ s.data

/-- Control-freedom of a scalar's string content. -/
def jvalCtrlFree : JVal → Prop
  | .str t => ctrlFree t
  | .int _ => True

instance jvalCtrlFreeDec (v : JVal) : Decidable (jvalCtrlFree v) :=
  match v with
  | .str t => ctrlFreeDec t
  | .int _ => isTrue trivial

/-- The catalogs whose serialization the model reproduces byte for byte:
keys unique per event (a Python dict cannot repeat a key) and all strings
free of control characters. -/
def wfCatalog (events : List Event) : Prop :=
  ∀ e ∈ events, (e.map Prod.fst).Nodup ∧
    ∀ p ∈ e, ctrlFree p.1 ∧ jvalCtrlFree p.2

instance wfCatalogDec (events : List Event) : Decidable (wfCatalog events) :=
  List.decidableBAll _ events

/-- The "AI LATAM 2026" entry, carrying non-ASCII venue text. -/
def evLatam : Event :=
  [("name", .str "AI LATAM 2026"), ("venue", .str "São Paulo, Brazil"),
   ("estimated_attendees", .int 3500)]

/-- The curated `major_events` list hard-coded in
`crawl_major_ai_events`. -/
def majorEvents : List Event :=
  [[("name", .str "NeurIPS 2025"),
    ("format", .str "Hybrid"),
    ("venue", .str "Vancouver, Canada"),
    ("date", .str "2025-12-08"),
    ("theme", .str "Neural Information Processing Systems"),
    ("type", .str "Conference"),
    ("submission_deadline", .str "2025-05-15"),
    ("ticket_start_date", .str "2025-08-01"),
    ("ticket_end_date", .str "2025-12-07"),
    ("url", .str "https://neurips.cc"),
    ("description", .str "The leading conference in machine learning and computational neuroscience"),
    ("estimated_attendees", .int 15000)],
   [("name", .str "ICML 2025"),
    ("format", .str "Hybrid"),
    ("venue", .str "Vancouver, Canada"),
    ("date", .str "2025-07-15"),
    ("theme", .str "International Conference on Machine Learning"),
    ("type", .str "Conference"),
    ("submission_deadline", .str "2025-01-30"),
    ("ticket_start_date", .str "2025-04-01"),
    ("ticket_end_date", .str "2025-07-14"),
    ("url", .str "https://icml.cc"),
    ("description", .str "Premier gathering of researchers in machine learning"),
    ("estimated_attendees", .int 10000)],
   [("name", .str "CVPR 2026"),
    ("format", .str "Hybrid"),
    ("venue", .str "Nashville, USA"),
    ("date", .str "2026-06-19"),
    ("theme", .str "Computer Vision and Pattern Recognition"),
    ("type", .str "Conference"),
    ("submission_deadline", .str "2025-11-15"),
    ("ticket_start_date", .str "2026-03-01"),
    ("ticket_end_date", .str "2026-06-18"),
    ("url", .str "https://cvpr.cc"),
    ("description", .str "Leading conference in computer vision research"),
    ("estimated_attendees", .int 12000)],
   [("name", .str "ICLR 2026"),
    ("format", .str "Hybrid"),
    ("venue", .str "Singapore"),
    ("date", .str "2026-04-24"),
    ("theme", .str "International Conference on Learning Representations"),
    ("type", .str "Conference"),
    ("submission_deadline", .str "2025-10-01"),
    ("ticket_start_date", .str "2026-02-01"),
    ("ticket_end_date", .str "2026-04-23"),
    ("url", .str "https://iclr.cc"),
    ("description", .str "Top-tier deep learning research conference"),
    ("estimated_attendees", .int 8000)],
   [("name", .str "ACL 2026"),
    ("format", .str "Hybrid"),
    ("venue", .str "Bangkok, Thailand"),
    ("date", .str "2026-08-03"),
    ("theme", .str "Association for Computational Linguistics"),
    ("type", .str "Conference"),
    ("submission_deadline", .str "2026-02-15"),
    ("ticket_start_date", .str "2026-05-01"),
    ("ticket_end_date", .str "2026-08-02"),
    ("url", .str "https://www.aclweb.org"),
    ("description", .str "Premier conference for natural language processing and computational linguistics"),
    ("estimated_attendees", .int 6000)],
   [("name", .str "AAAI 2026"),
    ("format", .str "Hybrid"),
    ("venue", .str "Philadelphia, USA"),
    ("date", .str "2026-02-09"),
    ("theme", .str "Association for the Advancement of Artificial Intelligence"),
    ("type", .str "Conference"),
    ("submission_deadline", .str "2025-08-15"),
    ("ticket_start_date", .str "2025-11-01"),
    ("ticket_end_date", .str "2026-02-08"),
    ("url", .str "https://aaai.org"),
    ("description", .str "Major AI conference covering all aspects of artificial intelligence"),
    ("estimated_attendees", .int 7000)],
   [("name", .str "AI Summit New York 2025"),
    ("format", .str "In-person"),
    ("venue", .str "New York, USA"),
    ("date", .str "2025-12-10"),
    ("theme", .str "Enterprise AI and Business Innovation"),
    ("type", .str "Summit"),
    ("submission_deadline", .str "N/A"),
    ("ticket_start_date", .str "2025-06-01"),
    ("ticket_end_date", .str "2025-12-09"),
    ("url", .str "https://theaisummit.com"),
    ("description", .str "Business-focused AI summit for enterprise leaders and practitioners"),
    ("estimated_attendees", .int 5000)],
   [("name", .str "AI Summit London 2026"),
    ("format", .str "In-person"),
    ("venue", .str "London, UK"),
    ("date", .str "2026-06-10"),
    ("theme", .str "AI for Business Transformation"),
    ("type", .str "Summit"),
    ("submission_deadline", .str "N/A"),
    ("ticket_start_date", .str "2026-01-15"),
    ("ticket_end_date", .str "2026-06-09"),
    ("url", .str "https://theaisummit.com"),
    ("description", .str "Europe's leading AI event for business and technology leaders"),
    ("estimated_attendees", .int 6000)],
   [("name", .str "RE•WORK Deep Learning Summit 2026"),
    ("format", .str "Hybrid"),
    ("venue", .str "San Francisco, USA"),
    ("date", .str "2026-01-29"),
    ("theme", .str "Deep Learning Applications and Research"),
    ("type", .str "Summit"),
    ("submission_deadline", .str "N/A"),
    ("ticket_start_date", .str "2025-10-01"),
    ("ticket_end_date", .str "2026-01-28"),
    ("url", .str "https://www.re-work.co"),
    ("description", .str "Applied deep learning for business and research"),
    ("estimated_attendees", .int 2000)],
   [("name", .str "MLOps World 2026"),
    ("format", .str "Hybrid"),
    ("venue", .str "Austin, USA"),
    ("date", .str "2026-06-03"),
    ("theme", .str "Machine Learning Operations and Production ML"),
    ("type", .str "Conference"),
    ("submission_deadline", .str "2026-03-01"),
    ("ticket_start_date", .str "2026-02-01"),
    ("ticket_end_date", .str "2026-06-02"),
    ("url", .str "https://mlopsworld.com"),
    ("description", .str "The leading event for ML engineering and operations"),
    ("estimated_attendees", .int 3000)],
   [("name", .str "Generative AI World 2026"),
    ("format", .str "In-person"),
    ("venue", .str "Las Vegas, USA"),
    ("date", .str "2026-03-18"),
    ("theme", .str "Generative AI and Large Language Models"),
    ("type", .str "Summit"),
    ("submission_deadline", .str "N/A"),
    ("ticket_start_date", .str "2025-12-01"),
    ("ticket_end_date", .str "2026-03-17"),
    ("url", .str "https://www.gen-ai.world"),
    ("description", .str "Focused on generative AI, LLMs, and creative AI applications"),
    ("estimated_attendees", .int 4000)],
   [("name", .str "AI in Healthcare Summit 2026"),
    ("format", .str "Hybrid"),
    ("venue", .str "Boston, USA"),
    ("date", .str "2026-05-12"),
    ("theme", .str "AI Applications in Healthcare and Medicine"),
    ("type", .str "Summit"),
    ("submission_deadline", .str "N/A"),
    ("ticket_start_date", .str "2026-02-01"),
    ("ticket_end_date", .str "2026-05-11"),
    ("url", .str "https://www.ai-healthcare-summit.com"),
    ("description", .str "AI innovations for healthcare, diagnostics, and drug discovery"),
    ("estimated_attendees", .int 2500)],
   [("name", .str "PyTorch Conference 2026"),
    ("format", .str "Hybrid"),
    ("venue", .str "San Francisco, USA"),
    ("date", .str "2026-10-07"),
    ("theme", .str "PyTorch and Deep Learning Frameworks"),
    ("type", .str "Conference"),
    ("submission_deadline", .str "2026-07-01"),
    ("ticket_start_date", .str "2026-06-01"),
    ("ticket_end_date", .str "2026-10-06"),
    ("url", .str "https://pytorchconf.com"),
    ("description", .str "Community conference for PyTorch developers and researchers"),
    ("estimated_attendees", .int 3000)],
   [("name", .str "TensorFlow Dev Summit 2026"),
    ("format", .str "Online"),
    ("venue", .str "Virtual"),
    ("date", .str "2026-03-25"),
    ("theme", .str "TensorFlow and ML Development"),
    ("type", .str "Summit"),
    ("submission_deadline", .str "N/A"),
    ("ticket_start_date", .str "2026-01-15"),
    ("ticket_end_date", .str "2026-03-24"),
    ("url", .str "https://www.tensorflow.org/dev-summit"),
    ("description", .str "Google's annual TensorFlow developer conference"),
    ("estimated_attendees", .int 10000)],
   [("name", .str "AI India Summit 2026"),
    ("format", .str "Hybrid"),
    ("venue", .str "Bangalore, India"),
    ("date", .str "2026-02-25"),
    ("theme", .str "AI Innovation in India and South Asia"),
    ("type", .str "Summit"),
    ("submission_deadline", .str "N/A"),
    ("ticket_start_date", .str "2025-11-01"),
    ("ticket_end_date", .str "2026-02-24"),
    ("url", .str "https://www.aiindiasummit.com"),
    ("description", .str "Leading AI event in India covering business and technology"),
    ("estimated_attendees", .int 4000)],
   [("name", .str "AI China Conference 2026"),
    ("format", .str "In-person"),
    ("venue", .str "Beijing, China"),
    ("date", .str "2026-07-22"),
    ("theme", .str "AI Research and Industry in China"),
    ("type", .str "Conference"),
    ("submission_deadline", .str "2026-04-01"),
    ("ticket_start_date", .str "2026-04-15"),
    ("ticket_end_date", .str "2026-07-21"),
    ("url", .str "https://www.aichinaconf.com"),
    ("description", .str "Major AI conference showcasing Chinese AI research and applications"),
    ("estimated_attendees", .int 8000)],
   [("name", .str "AI Africa Summit 2026"),
    ("format", .str "Hybrid"),
    ("venue", .str "Cape Town, South Africa"),
    ("date", .str "2026-09-16"),
    ("theme", .str "AI for African Development and Innovation"),
    ("type", .str "Summit"),
    ("submission_deadline", .str "N/A"),
    ("ticket_start_date", .str "2026-05-01"),
    ("ticket_end_date", .str "2026-09-15"),
    ("url", .str "https://www.aiafricasummit.com"),
    ("description", .str "Bringing AI innovation to solve African challenges"),
    ("estimated_attendees", .int 2000)],
   [("name", .str "AI LATAM 2026"),
    ("format", .str "Hybrid"),
    ("venue", .str "São Paulo, Brazil"),
    ("date", .str "2026-11-11"),
    ("theme", .str "AI in Latin America"),
    ("type", .str "Conference"),
    ("submission_deadline", .str "2026-08-01"),
    ("ticket_start_date", .str "2026-07-01"),
    ("ticket_end_date", .str "2026-11-10"),
    ("url", .str "https://www.ailatam.com"),
    ("description", .str "Largest AI event in Latin America"),
    ("estimated_attendees", .int 3500)],
   [("name", .str "EmTech Digital 2026"),
    ("format", .str "In-person"),
    ("venue", .str "San Francisco, USA"),
    ("date", .str "2026-05-20"),
    ("theme", .str "Emerging Technologies and Digital Transformation"),
    ("type", .str "Conference"),
    ("submission_deadline", .str "N/A"),
    ("ticket_start_date", .str "2026-02-01"),
    ("ticket_end_date", .str "2026-05-19"),
    ("url", .str "https://events.technologyreview.com"),
    ("description", .str "MIT Technology Review's conference on AI and emerging tech"),
    ("estimated_attendees", .int 3000)],
   [("name", .str "AI for Good Global Summit 2026"),
    ("format", .str "Hybrid"),
    ("venue", .str "Geneva, Switzerland"),
    ("date", .str "2026-06-29"),
    ("theme", .str "AI for Sustainable Development Goals"),
    ("type", .str "Summit"),
    ("submission_deadline", .str "N/A"),
    ("ticket_start_date", .str "2026-03-01"),
    ("ticket_end_date", .str "2026-06-28"),
    ("url", .str "https://aiforgood.itu.int"),
    ("description", .str "UN's leading platform on AI for social good"),
    ("estimated_attendees", .int 2500)],
   [("name", .str "FAccT 2026"),
    ("format", .str "Hybrid"),
    ("venue", .str "Barcelona, Spain"),
    ("date", .str "2026-06-24"),
    ("theme", .str "Fairness, Accountability, and Transparency in AI"),
    ("type", .str "Conference"),
    ("submission_deadline", .str "2026-01-31"),
    ("ticket_start_date", .str "2026-03-01"),
    ("ticket_end_date", .str "2026-06-23"),
    ("url", .str "https://facctconference.org"),
    ("description", .str "Leading conference on responsible AI, algorithmic fairness, and ethical considerations in machine learning"),
    ("estimated_attendees", .int 2000)],
   [("name", .str "World Summit AI 2025"),
    ("format", .str "In-person"),
    ("venue", .str "Doha, Qatar"),
    ("date", .str "2025-10-09"),
    ("theme", .str "Global AI Innovation and Business Applications"),
    ("type", .str "Summit"),
    ("submission_deadline", .str "N/A"),
    ("ticket_start_date", .str "2025-05-01"),
    ("ticket_end_date", .str "2025-10-08"),
    ("url", .str "https://worldsummit.ai"),
    ("description", .str "World's premier AI summit bringing together industry leaders, researchers, and policymakers"),
    ("estimated_attendees", .int 5000)],
   [("name", .str "EMNLP 2025"),
    ("format", .str "Hybrid"),
    ("venue", .str "Miami, USA"),
    ("date", .str "2025-11-11"),
    ("theme", .str "Empirical Methods in Natural Language Processing"),
    ("type", .str "Conference"),
    ("submission_deadline", .str "2025-06-15"),
    ("ticket_start_date", .str "2025-08-15"),
    ("ticket_end_date", .str "2025-11-10"),
    ("url", .str "https://2025.emnlp.org"),
    ("description", .str "Major conference on NLP and computational linguistics with latest research in language models"),
    ("estimated_attendees", .int 5000)],
   [("name", .str "AISTATS 2026"),
    ("format", .str "Hybrid"),
    ("venue", .str "Valencia, Spain"),
    ("date", .str "2026-05-04"),
    ("theme", .str "Artificial Intelligence and Statistics"),
    ("type", .str "Conference"),
    ("submission_deadline", .str "2025-10-15"),
    ("ticket_start_date", .str "2026-02-01"),
    ("ticket_end_date", .str "2026-05-03"),
    ("url", .str "https://aistats.org"),
    ("description", .str "Interdisciplinary conference at the intersection of AI, machine learning, and statistics"),
    ("estimated_attendees", .int 1500)],
   [("name", .str "AI World Government Summit 2026"),
    ("format", .str "In-person"),
    ("venue", .str "Dubai, UAE"),
    ("date", .str "2026-02-11"),
    ("theme", .str "AI in Government and Public Policy"),
    ("type", .str "Summit"),
    ("submission_deadline", .str "N/A"),
    ("ticket_start_date", .str "2025-11-01"),
    ("ticket_end_date", .str "2026-02-10"),
    ("url", .str "https://worldgovernmentsummit.org"),
    ("description", .str "Government-focused summit on AI policy, regulation, and public sector innovation"),
    ("estimated_attendees", .int 4000)],
   [("name", .str "KDD 2026"),
    ("format", .str "Hybrid"),
    ("venue", .str "Chicago, USA"),
    ("date", .str "2026-08-23"),
    ("theme", .str "Knowledge Discovery and Data Mining"),
    ("type", .str "Conference"),
    ("submission_deadline", .str "2026-02-08"),
    ("ticket_start_date", .str "2026-05-01"),
    ("ticket_end_date", .str "2026-08-22"),
    ("url", .str "https://kdd.org"),
    ("description", .str "Premier conference on data science, data mining, and knowledge discovery"),
    ("estimated_attendees", .int 4000)],
   [("name", .str "IJCAI 2026"),
    ("format", .str "Hybrid"),
    ("venue", .str "Montreal, Canada"),
    ("date", .str "2026-08-29"),
    ("theme", .str "International Joint Conference on Artificial Intelligence"),
    ("type", .str "Conference"),
    ("submission_deadline", .str "2026-01-21"),
    ("ticket_start_date", .str "2026-05-01"),
    ("ticket_end_date", .str "2026-08-28"),
    ("url", .str "https://ijcai.org"),
    ("description", .str "One of the oldest and most prestigious AI conferences covering all aspects of AI"),
    ("estimated_attendees", .int 3500)],
   [("name", .str "AI & Big Data Expo 2026"),
    ("format", .str "In-person"),
    ("venue", .str "Amsterdam, Netherlands"),
    ("date", .str "2026-03-11"),
    ("theme", .str "AI and Big Data for Enterprise"),
    ("type", .str "Expo"),
    ("submission_deadline", .str "N/A"),
    ("ticket_start_date", .str "2025-12-01"),
    ("ticket_end_date", .str "2026-03-10"),
    ("url", .str "https://aibigdataexpo.com"),
    ("description", .str "Leading enterprise AI and big data expo with hands-on workshops and vendor exhibitions"),
    ("estimated_attendees", .int 8000)],
   [("name", .str "ECCV 2026"),
    ("format", .str "Hybrid"),
    ("venue", .str "Milan, Italy"),
    ("date", .str "2026-10-11"),
    ("theme", .str "European Conference on Computer Vision"),
    ("type", .str "Conference"),
    ("submission_deadline", .str "2026-03-07"),
    ("ticket_start_date", .str "2026-06-01"),
    ("ticket_end_date", .str "2026-10-10"),
    ("url", .str "https://eccv2026.eu"),
    ("description", .str "Top European computer vision conference with cutting-edge research in visual AI"),
    ("estimated_attendees", .int 3000)],
   [("name", .str "AI Hardware Summit 2026"),
    ("format", .str "In-person"),
    ("venue", .str "Santa Clara, USA"),
    ("date", .str "2026-09-08"),
    ("theme", .str "AI Chips, Accelerators, and Hardware Innovation"),
    ("type", .str "Summit"),
    ("submission_deadline", .str "N/A"),
    ("ticket_start_date", .str "2026-05-01"),
    ("ticket_end_date", .str "2026-09-07"),
    ("url", .str "https://aihardwaresummit.com"),
    ("description", .str "Focused on AI hardware, chip design, GPUs, TPUs, and edge AI acceleration"),
    ("estimated_attendees", .int 2500)]]

/-- `AIEventsCrawler.run` proper: the curated list is the only adapter. -/
def run (events : List Event) : Except PyErr (List Event) :=
  runWith majorEvents events

/-- Continuation handling for a two-byte UTF-8 lead `b`. -/
def utf8Cont2 (k : List Nat → Option (List Char)) (b : Nat) :
    List Nat → Option (List Char)
  | b1 :: rest1 =>
    if 0x80 ≤ b1 ∧ b1 < 0xc0 then
      if 0x80 ≤ (b - 0xc0) * 64 + (b1 - 0x80) then
        (k rest1).map fun cs => Char.ofNat ((b - 0xc0) * 64 + (b1 - 0x80)) :: cs
      else none
    else none
  | [] => none

/-- Continuation handling for a three-byte UTF-8 lead `b`: overlong and
surrogate code points are rejected. -/
def utf8Cont3 (k : List Nat → Option (List Char)) (b : Nat) :
    List Nat → Option (List Char)
  | b1 :: b2 :: rest2 =>
    if (0x80 ≤ b1 ∧ b1 < 0xc0) ∧ (0x80 ≤ b2 ∧ b2 < 0xc0) then
      if 0x800 ≤ (b - 0xe0) * 4096 + (b1 - 0x80) * 64 + (b2 - 0x80) ∧
          ¬(0xd800 ≤ (b - 0xe0) * 4096 + (b1 - 0x80) * 64 + (b2 - 0x80) ∧
            (b - 0xe0) * 4096 + (b1 - 0x80) * 64 + (b2 - 0x80) < 0xe000) then
        (k rest2).map fun cs =>
          Char.ofNat ((b - 0xe0) * 4096 + (b1 - 0x80) * 64 + (b2 - 0x80)) :: cs
      else none
    else none
  | _ => none

/-- Continuation handling for a four-byte UTF-8 lead `b`: code points above
`0x10FFFF` (and the unused leads `0xF5`-`0xF7`) are rejected. -/
def utf8Cont4 (k : List Nat → Option (List Char)) (b : Nat) :
    List Nat → Option (List Char)
  | b1 :: b2 :: b3 :: rest3 =>
    if (0x80 ≤ b1 ∧ b1 < 0xc0) ∧ (0x80 ≤ b2 ∧ b2 < 0xc0) ∧
        (0x80 ≤ b3 ∧ b3 < 0xc0) then
      if 0x10000 ≤ (b - 0xf0) * 262144 + (b1 - 0x80) * 4096 +
            (b2 - 0x80) * 64 + (b3 - 0x80) ∧
          (b - 0xf0) * 262144 + (b1 - 0x80) * 4096 +
            (b2 - 0x80) * 64 + (b3 - 0x80) < 0x110000 then
        (k rest3).map fun cs =>
          Char.ofNat ((b - 0xf0) * 262144 + (b1 - 0x80) * 4096 +
            (b2 - 0x80) * 64 + (b3 - 0x80)) :: cs
      else none
    else none
  | _ => none

/-- Strict UTF-8 decoding of a byte sequence, as `open(..., encoding='utf-8')`
performs while `json.load(f)` reads the file: exactly the well-formed
sequences of Unicode Table 3-7 are accepted — no overlong forms, no
surrogates, nothing above `0x10FFFF`, no truncated or stray bytes.  `none`
models the `UnicodeDecodeError` CPython raises on anything else.  The
structural fuel (one unit per decoded character, instantiated with the byte
count) keeps the recursion kernel-reducible. -/
def utf8DecodeList : Nat → List Nat → Option (List Char)
  | _, [] => some []
  | 0, _ :: _ => none
  | fuel + 1, b :: rest =>
    if b < 0x80 then
      (utf8DecodeList fuel rest).map fun cs => Char.ofNat b :: cs
    else if b < 0xc0 then none
    else if b < 0xe0 then utf8Cont2 (utf8DecodeList fuel) b rest
    else if b < 0xf0 then utf8Cont3 (utf8DecodeList fuel) b rest
    else if b < 0xf8 then utf8Cont4 (utf8DecodeList fuel) b rest
    else none

/-- `bytes.decode('utf-8')`. -/
def utf8Decode (bytes : List Nat) : Option String :=
  (utf8DecodeList bytes.length bytes).map String.mk

def isHexDig (c : Char) : Bool :=
  c.isDigit || ('a' ≤ c && c ≤ 'f') || ('A' ≤ c && c ≤ 'F')

def skipString : List Char → Option (List Char)
  | [] => none
  | c :: rest =>
    if c = '\"' then some rest
    else if c = '\\' then
      match rest with
      | [] => none
      | e :: rest2 =>
        if e = 'u' then
          match rest2 with
          | h1 :: h2 :: h3 :: h4 :: rest3 =>
            if isHexDig h1 && isHexDig h2 && isHexDig h3 && isHexDig h4 then
              skipString rest3
            else none
          | _ => none
        else if e = '\"' || e = '\\' || e = '/' || e = 'b' || e = 'f' ||
            e = 'n' || e = 'r' || e = 't' then
          skipString rest2
        else none
    else if c.toNat < 32 then none
    else skipString rest

def skipDigits : List Char → List Char
  | [] => []
  | c :: rest => if c.isDigit then skipDigits rest else c :: rest

def skipIntDigits : List Char → Option (List Char)
  | [] => none
  | c :: rest =>
    if c = '0' then some rest
    else if c.isDigit then some (skipDigits rest)
    else none

def skipFracOpt : List Char → List Char
  | [] => []
  | c :: rest =>
    if c = '.' then
      match rest with
      | [] => [c]
      | d :: rest2 => if d.isDigit then skipDigits rest2 else c :: d :: rest2
    else c :: rest

def skipExpOpt : List Char → List Char
  | [] => []
  | c :: rest =>
    if c = 'e' || c = 'E' then
      match rest with
      | [] => [c]
      | d :: rest2 =>
        if d.isDigit then skipDigits rest2
        else if d = '+' || d = '-' then
          match rest2 with
          | [] => [c, d]
          | d2 :: rest3 =>
            if d2.isDigit then skipDigits rest3 else c :: d :: d2 :: rest3
        else c :: d :: rest2
    else c :: rest

def skipNumTail (s : List Char) : Option (List Char) :=
  (skipIntDigits s).map fun r => skipExpOpt (skipFracOpt r)

def stripLit : List Char → List Char → Option (List Char)
  | [], s => some s
  | _ :: _, [] => none
  | l :: ls, c :: rest => if c = l then stripLit ls rest else none

inductive JMode where
  | value : JMode
  | members : JMode
  | elems : JMode

def jsonSkip : Nat → JMode → List Char → Option (List Char)
  | 0, _, _ => none
  | fuel + 1, .value, s =>
    match skipWs s with
    | [] => none
    | c :: rest =>
      if c = lcurl then
        match skipWs rest with
        | [] => none
        | c2 :: rest2 =>
          if c2 = rcurl then some rest2
          else jsonSkip fuel .members (c2 :: rest2)
      else if c = '[' then
        match skipWs rest with
        | [] => none
        | c2 :: rest2 =>
          if c2 = ']' then some rest2
          else jsonSkip fuel .elems (c2 :: rest2)
      else if c = '\"' then skipString rest
      else if c = 't' then stripLit ['r', 'u', 'e'] rest
      else if c = 'f' then stripLit ['a', 'l', 's', 'e'] rest
      else if c = 'n' then stripLit ['u', 'l', 'l'] rest
      else if c = 'N' then stripLit ['a', 'N'] rest
      else if c = 'I' then stripLit ['n', 'f', 'i', 'n', 'i', 't', 'y'] rest
      else if c = '-' then
        match rest with
        | [] => none
        | c2 :: rest2 =>
          if c2 = 'I' then stripLit ['n', 'f', 'i', 'n', 'i', 't', 'y'] rest2
          else skipNumTail (c2 :: rest2)
      else skipNumTail (c :: rest)
  | fuel + 1, .members, s =>
    match s with
    | [] => none
    | c :: rest =>
      if c = '\"' then
        match skipString rest with
        | none => none
        | some r1 =>
          match skipWs r1 with
          | [] => none
          | c2 :: r2 =>
            if c2 = ':' then
              match jsonSkip fuel .value r2 with
              | none => none
              | some r3 =>
                match skipWs r3 with
                | [] => none
                | c3 :: r4 =>
                  if c3 = ',' then jsonSkip fuel .members (skipWs r4)
                  else if c3 = rcurl then some r4
                  else none
            else none
      else none
  | fuel + 1, .elems, s =>
    match jsonSkip fuel .value s with
    | none => none
    | some r1 =>
      match skipWs r1 with
      | [] => none
      | c :: r2 =>
        if c = ',' then jsonSkip fuel .elems r2
        else if c = ']' then some r2
        else none

def jsonTextValid (s : String) : Bool :=
  match jsonSkip (2 * s.length + 2) .value s.data with
  | some r => (skipWs r).isEmpty
  | none => false

/-- `AIEventsCrawler.load_existing_data`, applied to the raw bytes of the
persisted file (`none` models a missing file).  The bytes are decoded as
UTF-8 first, as `open(self.data_file, 'r', encoding='utf-8')` does while
`json.load(f)` reads it; a decode failure raises `UnicodeDecodeError`,
which the `except json.JSONDecodeError` clause does not catch, so it
escapes the method as a fatal error.  Decoded text that `json.load`
rejects raises `json.JSONDecodeError`, which is caught: the method prints
the recoverable "starting fresh" warning and leaves the catalog empty.
Valid JSON loads; the typed payload is `some es` for the documents the
serialization model itself writes (`parseCatalog`), and `none` stands for
a successfully loaded JSON value outside the typed event model. -/
def loadExistingData :
    Option (List Nat) → Except PyErr (Option (List Event) × LoadStatus)
  | none => .ok (some [], .fresh)
  | some bytes =>
    match utf8Decode bytes with
    | none => .error .unicodeDecodeError
    | some s =>
      if jsonTextValid s then .ok (parseCatalog s, .loaded)
      else .ok (some [], .corrupt)

def numStop : List Char → Prop
  | [] => True
  | c :: _ => c.isDigit = false ∧ c ≠ '.' ∧ c ≠ 'e' ∧ c ≠ 'E'

def elemsFuel : Event → List Event → Nat
  | e, [] => e.length + 3
  | e, e2 :: es => max (e.length + 3) (1 + elemsFuel e2 es)

/-! ## Basic lemmas about the `Except` plumbing and the dedup engine -/

@[simp]
theorem exceptBind_ok {α β : Type} (a : α) (f : α → Except PyErr β) :
    (Except.ok a >>= f : Except PyErr β) = f a := rfl

@[simp]

theorem exceptBind_error {α β : Type} (er : PyErr) (f : α → Except PyErr β) :
    (Except.error er >>= f : Except PyErr β) = Except.error er := rfl

@[simp]

theorem exceptPure_eq_ok {α : Type} (a : α) :
    (pure a : Except PyErr α) = Except.ok a := rfl

theorem event_exists_eq (e : Event) (c : List Event) (i : String) (ids : List String)
    (h1 : generate_event_id e = .ok i) (h2 : catalogIds c = .ok ids) :
    event_exists e c = .ok (ids.contains i) := by
  simp [event_exists, h1, h2]

theorem add_event_eq (e : Event) (c : List Event) (i : String) (ids : List String)
    (h1 : generate_event_id e = .ok i) (h2 : catalogIds c = .ok ids) :
    add_event c e =
      if ids.contains i then .ok (c, false) else .ok (c ++ [e], true) := by
  simp only [add_event, event_exists_eq e c i ids h1 h2, exceptBind_ok]
  by_cases h : ids.contains i <;> simp [h]

theorem add_event_of_not_mem (e : Event) (c : List Event) (i : String)
    (ids : List String) (h1 : generate_event_id e = .ok i)
    (h2 : catalogIds c = .ok ids) (hni : i ∉ ids) :
    add_event c e = .ok (c ++ [e], true) := by
  have hb : ids.contains i = false := by
    simp only [List.contains, List.elem_eq_mem]
    simpa using hni
  rw [add_event_eq e c i ids h1 h2, hb]
  simp

theorem add_event_of_mem (e : Event) (c : List Event) (i : String)
    (ids : List String) (h1 : generate_event_id e = .ok i)
    (h2 : catalogIds c = .ok ids) (hmem : i ∈ ids) :
    add_event c e = .ok (c, false) := by
  have hb : ids.contains i = true := by
    simp only [List.contains, List.elem_eq_mem]
    simpa using hmem
  rw [add_event_eq e c i ids h1 h2, hb]
  simp

theorem event_exists_ok_inv (e : Event) (c : List Event) (b : Bool)
    (h : event_exists e c = .ok b) :
    ∃ i ids, generate_event_id e = .ok i ∧ catalogIds c = .ok ids ∧
      b = ids.contains i := by
  cases h1 : generate_event_id e with
  | error er => simp [event_exists, h1] at h
  | ok i =>
    cases h2 : catalogIds c with
    | error er => simp [event_exists, h1, h2] at h
    | ok ids =>
      refine ⟨i, ids, rfl, rfl, ?_⟩
      simp only [event_exists, h1, h2, exceptBind_ok, exceptPure_eq_ok,
        Except.ok.injEq] at h
      exact h.symm

theorem catalogIds_append (c1 c2 : List Event) (ids1 ids2 : List String)
    (h1 : catalogIds c1 = .ok ids1) (h2 : catalogIds c2 = .ok ids2) :
    catalogIds (c1 ++ c2) = .ok (ids1 ++ ids2) := by
  induction c1 generalizing ids1 with
  | nil =>
    simp [catalogIds] at h1
    simp [h1.symm, h2]
  | cons e rest ih =>
    cases hg : generate_event_id e with
    | error er => simp [catalogIds, hg] at h1
    | ok i =>
      cases hr : catalogIds rest with
      | error er => simp [catalogIds, hg, hr] at h1
      | ok ids' =>
        simp [catalogIds, hg, hr] at h1
        simp [List.cons_append, catalogIds, hg, ih ids' hr, h1.symm]

theorem catalogIds_singleton (e : Event) (i : String)
    (h : generate_event_id e = .ok i) : catalogIds [e] = .ok [i] := by
  simp [catalogIds, h]

/-! ## Claim theorems: identity and dedup -/
/-- C3: for every event and catalog (with well-defined fingerprints),
`add_event` appends the event and returns `true` iff no event already in the
catalog has the same fingerprint; otherwise it returns `false` and leaves the
catalog exactly unchanged. -/
theorem add_event_appends_iff_novel (e : Event) (c : List Event) (i : String)
    (ids : List String) (h1 : generate_event_id e = .ok i)
    (h2 : catalogIds c = .ok ids) :
    (i ∉ ids → add_event c e = .ok (c ++ [e], true)) ∧
    (i ∈ ids → add_event c e = .ok (c, false)) :=
  ⟨add_event_of_not_mem e c i ids h1 h2, add_event_of_mem e c i ids h1 h2⟩

theorem add_event_appends_iff_novel_witness :
    add_event [] evICML = .ok ([evICML], true) :=
  (add_event_appends_iff_novel evICML []
      (md5hex "ICML 2025_2025-07-15_Vancouver, Canada") [] rfl rfl).1
    (List.not_mem_nil _)

/-- C1: starting from a catalog whose fingerprints are pairwise distinct,
any sequence of `add_event` calls (one per candidate, each checking the
catalog state current at call time) leaves the fingerprints pairwise
distinct; in particular an event added earlier in the run is seen as a
duplicate by a later identical candidate. -/
theorem crawl_preserves_nodup_ids (cands : List Event) (c c' : List Event)
    (n : Nat) (ids : List String) (hc : crawlEvents c cands = .ok (c', n))
    (hids : catalogIds c = .ok ids) (hnd : ids.Nodup) :
    ∃ ids', catalogIds c' = .ok ids' ∧ ids'.Nodup := by
  induction cands generalizing c n ids with
  | nil =>
    simp only [crawlEvents, Except.ok.injEq, Prod.mk.injEq] at hc
    exact ⟨ids, hc.1 ▸ hids, hnd⟩
  | cons e rest ih =>
    cases ha : add_event c e with
    | error er => simp [crawlEvents, ha] at hc
    | ok p =>
      obtain ⟨evs, added⟩ := p
      simp only [crawlEvents, ha, exceptBind_ok] at hc
      cases hcr : crawlEvents evs rest with
      | error er => simp [hcr] at hc
      | ok q =>
        obtain ⟨c'', n''⟩ := q
        simp only [hcr, exceptBind_ok, exceptPure_eq_ok, Except.ok.injEq,
          Prod.mk.injEq] at hc
        obtain ⟨rfl, -⟩ := hc
        -- invert the `add_event` call
        cases hb : event_exists e c with
        | error er => simp [add_event, hb] at ha
        | ok b =>
          obtain ⟨i, ids0, hgi, hci, hbi⟩ := event_exists_ok_inv e c b hb
          have hids0 : ids0 = ids := by
            rw [hids] at hci
            exact ((Except.ok.injEq _ _).mp hci).symm
          rw [hids0] at hbi
          simp only [add_event, hb, exceptBind_ok] at ha
          cases b with
          | true =>
            simp only [if_pos rfl, exceptPure_eq_ok, Except.ok.injEq,
              Prod.mk.injEq] at ha
            obtain ⟨rfl, -⟩ := ha
            exact ih c n'' ids hcr hids hnd
          | false =>
            simp only [Bool.false_eq_true, if_neg, exceptPure_eq_ok,
              Except.ok.injEq, Prod.mk.injEq, reduceIte] at ha
            obtain ⟨rfl, -⟩ := ha
            have hni : i ∉ ids := by
              intro hmem
              have : ids.contains i = true := by
                simp only [List.contains, List.elem_eq_mem]
                simpa using hmem
              rw [this] at hbi
              exact Bool.false_ne_true hbi
            have happ : catalogIds (c ++ [e]) = .ok (ids ++ [i]) :=
              catalogIds_append c [e] ids [i] hids (catalogIds_singleton e i hgi)
            have hnd' : (ids ++ [i]).Nodup := by
              rw [List.nodup_append]
              refine ⟨hnd, List.nodup_singleton i, ?_⟩
              intro a ha1 ha2
              rw [List.mem_singleton] at ha2
              exact hni (ha2 ▸ ha1)
            exact ih (c ++ [e]) n'' (ids ++ [i]) hcr happ hnd'

theorem crawl_preserves_nodup_ids_witness :
    ∃ ids', catalogIds [evICML] = .ok ids' ∧ ids'.Nodup :=
  crawl_preserves_nodup_ids [evICML] [evICML] [evICML] 0
    [md5hex "ICML 2025_2025-07-15_Vancouver, Canada"] (by rfl) rfl
    (List.nodup_singleton _)

/-- C2 (amended): identity collapse happens exactly through the raw key
string: two candidates whose `name`, `date` and `venue` build the same
f-string key receive the same fingerprint, and merging both into a catalog
yields at most one new entry (none when the key's fingerprint is already
present).  No case-folding or whitespace-trimming is applied anywhere. -/
theorem merge_collapses_equal_raw_keys (e1 e2 : Event) (c : List Event)
    (k : String) (ids : List String) (h1 : eventKey e1 = .ok k)
    (h2 : eventKey e2 = .ok k) (hc : catalogIds c = .ok ids) :
    (md5hex k ∉ ids → crawlEvents c [e1, e2] = .ok (c ++ [e1], 1)) ∧
    (md5hex k ∈ ids → crawlEvents c [e1, e2] = .ok (c, 0)) := by
  have hg1 : generate_event_id e1 = .ok (md5hex k) := by
    simp [generate_event_id, h1]
  have hg2 : generate_event_id e2 = .ok (md5hex k) := by
    simp [generate_event_id, h2]
  constructor
  · intro hni
    have ha1 := add_event_of_not_mem e1 c (md5hex k) ids hg1 hc hni
    have hc1 : catalogIds (c ++ [e1]) = .ok (ids ++ [md5hex k]) :=
      catalogIds_append c [e1] ids [md5hex k] hc
        (catalogIds_singleton e1 (md5hex k) hg1)
    have ha2 := add_event_of_mem e2 (c ++ [e1]) (md5hex k)
        (ids ++ [md5hex k]) hg2 hc1 (by simp)
    simp [crawlEvents, ha1, ha2]
  · intro hmem
    have ha1 := add_event_of_mem e1 c (md5hex k) ids hg1 hc hmem
    have ha2 := add_event_of_mem e2 c (md5hex k) ids hg2 hc hmem
    simp [crawlEvents, ha1, ha2]

theorem merge_collapses_equal_raw_keys_witness :
    crawlEvents [] [evICML, evICML] = .ok ([evICML], 1) :=
  (merge_collapses_equal_raw_keys evICML evICML []
      "ICML 2025_2025-07-15_Vancouver, Canada" [] rfl rfl rfl).1
    (List.not_mem_nil _)

/-- C2 (counterexample): the spec's own example pair — same date, name and
venue differing only in letter case and incidental whitespace — receives two
different fingerprints, and merging both yields two catalog entries, not
one. -/
theorem case_variant_pair_not_collapsed :
    generate_event_id evIcmlScraped ≠ generate_event_id evICML ∧
    crawlEvents [] [evICML, evIcmlScraped] =
      .ok ([evICML, evIcmlScraped], 2) := by
  constructor
  · decide
  · rfl

/-- C9: the fingerprint key construction is not injective over the field
contents: `evSepName` (name `"A_B"`, date `"C"`) and `evSepDate` (name
`"A"`, date `"B_C"`) have different names and different dates, yet
`generate_event_id` gives them the same id, because `"_"` also occurs inside
field values. -/
theorem event_id_key_not_injective :
    generate_event_id evSepName = generate_event_id evSepDate ∧
    getKey evSepName "name" ≠ getKey evSepDate "name" ∧
    getKey evSepName "date" ≠ getKey evSepDate "date" := by
  refine ⟨rfl, by decide, by decide⟩

/-! ## Lemmas about `setKey`/`getKey` and rank assignment -/
theorem getKey_setKey_same (e : Event) (k : String) (v : JVal) :
    getKey (setKey e k v) k = .ok v := by
  induction e with
  | nil => simp [setKey, getKey, List.lookup]
  | cons p rest ih =>
    obtain ⟨k', v'⟩ := p
    by_cases h : k' = k
    · simp [setKey, h, getKey, List.lookup]
    · simp only [setKey, if_neg h]
      simp only [getKey, List.lookup] at ih ⊢
      rw [beq_false_of_ne (fun hh => h hh.symm)]
      exact ih

theorem getKey_setKey_other (e : Event) (k k' : String) (v : JVal)
    (hne : k' ≠ k) : getKey (setKey e k v) k' = getKey e k' := by
  induction e with
  | nil =>
    simp [setKey, getKey, List.lookup, beq_false_of_ne hne]
  | cons p rest ih =>
    obtain ⟨k0, v0⟩ := p
    by_cases h : k0 = k
    · subst h
      simp only [setKey, if_pos rfl]
      simp [getKey, List.lookup, beq_false_of_ne hne]
    · simp only [setKey, if_neg h]
      simp only [getKey, List.lookup] at ih ⊢
      cases hbeq : (k' == k0) <;> simp [hbeq, ih]

theorem assignRanks_eq_rankFrom (l : List Event) :
    assignRanks l = rankFrom 0 l := by
  suffices h : ∀ n, (l.enumFrom n).map (fun p => setKey p.2 "#" (.int (p.1 + 1))) =
      rankFrom n l by
    exact h 0
  induction l with
  | nil => intro n; simp [rankFrom]
  | cons e rest ih =>
    intro n
    simp [List.enumFrom, rankFrom, ih (n + 1)]

theorem rankFrom_length (n : Nat) (l : List Event) :
    (rankFrom n l).length = l.length := by
  induction l generalizing n with
  | nil => simp [rankFrom]
  | cons e rest ih => simp [rankFrom, ih]

theorem eventKey_setKey_rank (e : Event) (v : JVal) :
    eventKey (setKey e "#" v) = eventKey e := by
  simp [eventKey, getKey_setKey_other e "#" "name" v (by decide),
    getKey_setKey_other e "#" "date" v (by decide),
    getKey_setKey_other e "#" "venue" v (by decide)]

theorem generate_event_id_setKey_rank (e : Event) (v : JVal) :
    generate_event_id (setKey e "#" v) = generate_event_id e := by
  simp [generate_event_id, eventKey_setKey_rank]

theorem getKey_date_rankFrom (n : Nat) (l : List Event) :
    List.Forall₂ (fun e e' => getKey e' "date" = getKey e "date") l
      (rankFrom n l) := by
  induction l generalizing n with
  | nil => exact List.Forall₂.nil
  | cons e rest ih =>
    exact List.Forall₂.cons
      (getKey_setKey_other e "#" "date" _ (by decide)) (ih (n + 1))

theorem catalogIds_rankFrom (n : Nat) (l : List Event) :
    catalogIds (rankFrom n l) = catalogIds l := by
  induction l generalizing n with
  | nil => simp [rankFrom]
  | cons e rest ih =>
    simp [rankFrom, catalogIds, generate_event_id_setKey_rank, ih (n + 1)]

theorem setKey_setKey_same (e : Event) (k : String) (v v' : JVal) :
    setKey (setKey e k v) k v' = setKey e k v' := by
  induction e with
  | nil => simp [setKey]
  | cons p rest ih =>
    obtain ⟨k0, v0⟩ := p
    by_cases h : k0 = k
    · simp [setKey, h]
    · simp [setKey, if_neg h, ih]

theorem rankFrom_idem (n : Nat) (l : List Event) :
    rankFrom n (rankFrom n l) = rankFrom n l := by
  induction l generalizing n with
  | nil => simp [rankFrom]
  | cons e rest ih => simp [rankFrom, setKey_setKey_same, ih (n + 1)]

theorem rankFrom_ranks (n : Nat) (l : List Event) :
    (rankFrom n l).map (fun e => getKey e "#") =
      (List.range' (n + 1) l.length).map (fun i => .ok (.int i)) := by
  induction l generalizing n with
  | nil => simp [rankFrom]
  | cons e rest ih =>
    simp [rankFrom, List.range', getKey_setKey_same, ih (n + 1)]

/-! ## Lemmas about key extraction and the sort -/
theorem mapM_dateKeyed_ok_inv (l : List Event) (ps : List (JVal × Event))
    (h : l.mapM dateKeyed = .ok ps) :
    ps.map Prod.snd = l ∧ ∀ p ∈ ps, getKey p.2 "date" = .ok p.1 := by
  induction l generalizing ps with
  | nil =>
    simp only [List.mapM_nil, exceptPure_eq_ok, Except.ok.injEq] at h
    subst h
    simp
  | cons e rest ih =>
    rw [List.mapM_cons] at h
    cases hd : dateKeyed e with
    | error er => rw [hd] at h; simp at h
    | ok p =>
      rw [hd] at h
      cases hr : rest.mapM dateKeyed with
      | error er => rw [hr] at h; simp at h
      | ok qs =>
        rw [hr] at h
        simp only [exceptBind_ok, exceptPure_eq_ok, Except.ok.injEq] at h
        subst h
        have hpe : getKey e "date" = .ok p.1 ∧ p.2 = e := by
          cases hg : getKey e "date" with
          | error er => simp [dateKeyed, hg] at hd
          | ok d =>
            simp only [dateKeyed, hg, exceptBind_ok, exceptPure_eq_ok,
              Except.ok.injEq] at hd
            subst hd
            exact ⟨rfl, rfl⟩
        obtain ⟨ih1, ih2⟩ := ih qs hr
        refine ⟨?_, ?_⟩
        · simp [hpe.2, ih1]
        · intro q hq
          rcases List.mem_cons.mp hq with hq | hq
          · subst hq
            rw [hpe.2]
            exact hpe.1
          · exact ih2 q hq

theorem mapM_dateKeyed_of_pairs (ps : List (JVal × Event))
    (h : ∀ p ∈ ps, getKey p.2 "date" = .ok p.1) :
    (ps.map Prod.snd).mapM dateKeyed = .ok ps := by
  induction ps with
  | nil => rfl
  | cons p qs ih =>
    have hp := h p (List.mem_cons_self p qs)
    have hqs := ih fun q hq => h q (List.mem_cons_of_mem p hq)
    simp only [List.map_cons, List.mapM_cons, hqs, dateKeyed, hp,
      exceptBind_ok, exceptPure_eq_ok]

theorem mapM_dateKeyed_congr (l l' : List Event)
    (hd : List.Forall₂ (fun e e' => getKey e' "date" = getKey e "date") l l')
    (ps : List (JVal × Event)) (h : l.mapM dateKeyed = .ok ps) :
    ∃ ps', l'.mapM dateKeyed = .ok ps' ∧
      List.Forall₂ (fun p q => p.1 = q.1 : JVal × Event → JVal × Event → Prop)
        ps ps' ∧ ps'.map Prod.snd = l' := by
  induction hd generalizing ps with
  | nil =>
    simp only [List.mapM_nil, exceptPure_eq_ok, Except.ok.injEq] at h
    subst h
    exact ⟨[], rfl, List.Forall₂.nil, by simp⟩
  | cons he hrest ih =>
    rename_i e e' rest rest'
    rw [List.mapM_cons] at h
    cases hdk : dateKeyed e with
    | error er => rw [hdk] at h; simp at h
    | ok p =>
      rw [hdk] at h
      cases hr : rest.mapM dateKeyed with
      | error er => rw [hr] at h; simp at h
      | ok qs =>
        rw [hr] at h
        simp only [exceptBind_ok, exceptPure_eq_ok, Except.ok.injEq] at h
        subst h
        obtain ⟨qs', hq1, hq2, hq3⟩ := ih qs hr
        have hge : getKey e "date" = .ok p.1 := by
          cases hg : getKey e "date" with
          | error er => simp [dateKeyed, hg] at hdk
          | ok d =>
            simp only [dateKeyed, hg, exceptBind_ok, exceptPure_eq_ok,
              Except.ok.injEq] at hdk
            subst hdk
            exact rfl
        have hge' : getKey e' "date" = .ok p.1 := he.trans hge
        refine ⟨(p.1, e') :: qs', ?_, List.Forall₂.cons rfl hq2, by simp [hq3]⟩
        simp only [List.mapM_cons, hq1, dateKeyed, hge', exceptBind_ok,
          exceptPure_eq_ok]

theorem leStr_trans (a b c : JVal × Event) (h1 : leStr a b = true)
    (h2 : leStr b c = true) : leStr a c = true := by
  simp only [leStr, decide_eq_true_eq] at h1 h2 ⊢
  exact le_trans h1 h2

theorem leStr_total (a b : JVal × Event) : (leStr a b || leStr b a) = true := by
  simp only [leStr, Bool.or_eq_true, decide_eq_true_eq]
  exact le_total _ _

theorem leInt_trans (a b c : JVal × Event) (h1 : leInt a b = true)
    (h2 : leInt b c = true) : leInt a c = true := by
  simp only [leInt, decide_eq_true_eq] at h1 h2 ⊢
  exact le_trans h1 h2

theorem leInt_total (a b : JVal × Event) : (leInt a b || leInt b a) = true := by
  simp only [leInt, Bool.or_eq_true, decide_eq_true_eq]
  exact le_total _ _

/-- Inversion of a successful `sortEvents` call. -/
theorem sortEvents_ok_inv (l s : List Event) (h : sortEvents l = .ok s) :
    ∃ ps : List (JVal × Event), l.mapM dateKeyed = .ok ps ∧
      ((ps.all (fun p => p.1.isStr) = true ∧ s = (ps.mergeSort leStr).map Prod.snd) ∨
       (ps.all (fun p => !p.1.isStr) = true ∧ s = (ps.mergeSort leInt).map Prod.snd)) := by
  simp only [sortEvents] at h
  cases hm : l.mapM dateKeyed with
  | error er =>
    rw [hm] at h
    simp only [exceptBind_error] at h
    cases h
  | ok ps =>
    rw [hm] at h
    simp only [exceptBind_ok] at h
    refine ⟨ps, rfl, ?_⟩
    by_cases hstr : ps.all (fun p => p.1.isStr) = true
    · left
      rw [if_pos hstr] at h
      refine ⟨hstr, ?_⟩
      exact ((Except.ok.injEq _ _).mp h).symm
    · right
      rw [if_neg hstr] at h
      by_cases hint : ps.all (fun p => !p.1.isStr) = true
      · rw [if_pos hint] at h
        refine ⟨hint, ?_⟩
        exact ((Except.ok.injEq _ _).mp h).symm
      · rw [if_neg hint] at h
        cases h

/-- `sortEvents` leaves an already-sorted catalog of string dates unchanged. -/
theorem sortEvents_of_sorted_str (l : List Event) (ps : List (JVal × Event))
    (hm : l.mapM dateKeyed = .ok ps)
    (hall : ps.all (fun p => p.1.isStr) = true)
    (hp : List.Pairwise (fun p q => leStr p q = true) ps) :
    sortEvents l = .ok l := by
  have hmap := (mapM_dateKeyed_ok_inv l ps hm).1
  simp only [sortEvents]
  rw [hm]
  simp only [exceptBind_ok]
  rw [if_pos hall, List.mergeSort_of_sorted hp]
  exact congrArg Except.ok hmap

/-- `sortEvents` leaves an already-sorted catalog of integer dates unchanged. -/
theorem sortEvents_of_sorted_int (l : List Event) (ps : List (JVal × Event))
    (hm : l.mapM dateKeyed = .ok ps)
    (hall : ps.all (fun p => !p.1.isStr) = true)
    (hp : List.Pairwise (fun p q => leInt p q = true) ps) :
    sortEvents l = .ok l := by
  have hmap := (mapM_dateKeyed_ok_inv l ps hm).1
  by_cases hstr : ps.all (fun p => p.1.isStr) = true
  · -- every key is both a string and not a string: the list is empty
    have hnil : ps = [] := by
      cases ps with
      | nil => rfl
      | cons p qs =>
        have h1 := (List.all_eq_true.mp hstr) p (List.mem_cons_self p qs)
        have h2 := (List.all_eq_true.mp hall) p (List.mem_cons_self p qs)
        rw [h1] at h2
        cases h2
    subst hnil
    simp only [List.map_nil] at hmap
    subst hmap
    simp only [sortEvents]
    rw [hm]
    simp
  · simp only [sortEvents]
    rw [hm]
    simp only [exceptBind_ok]
    rw [if_neg hstr, if_pos hall, List.mergeSort_of_sorted hp]
    exact congrArg Except.ok hmap

theorem forall₂_mem_right {α β : Type} {R : α → β → Prop} {l : List α}
    {l' : List β} (h : List.Forall₂ R l l') {b : β} (hb : b ∈ l') :
    ∃ a ∈ l, R a b := by
  induction h with
  | nil => cases hb
  | cons hr hrest ih =>
    rcases List.mem_cons.mp hb with rfl | hb'
    · exact ⟨_, List.mem_cons_self _ _, hr⟩
    · obtain ⟨a, ha, hab⟩ := ih hb'
      exact ⟨a, List.mem_cons_of_mem _ ha, hab⟩

theorem pairwise_dateLe_congr (l l' : List Event)
    (hf : List.Forall₂ (fun e e' => getKey e' "date" = getKey e "date") l l')
    (hp : l.Pairwise dateLe) : l'.Pairwise dateLe := by
  induction hf with
  | nil => exact List.Pairwise.nil
  | cons he hrest ih =>
    rename_i a a' rest rest'
    rw [List.pairwise_cons] at hp ⊢
    refine ⟨?_, ih hp.2⟩
    intro b' hb'
    obtain ⟨b, hb, hdb⟩ := forall₂_mem_right hrest hb'
    obtain ⟨da, db, h1, h2, h3⟩ := hp.1 b hb
    exact ⟨da, db, he.trans h1, hdb.trans h2, h3⟩

theorem jvalLe_of_strVal (u v : JVal) (hu : u.isStr = true) (hv : v.isStr = true)
    (h : u.strVal ≤ v.strVal) : jvalLe u v = true := by
  cases u <;> cases v <;> simp_all [JVal.isStr, JVal.strVal, jvalLe]

theorem jvalLe_of_intVal (u v : JVal) (hu : u.isStr = false) (hv : v.isStr = false)
    (h : u.intVal ≤ v.intVal) : jvalLe u v = true := by
  cases u <;> cases v <;> simp_all [JVal.isStr, JVal.intVal, jvalLe]

/-- The output of a successful `sortEvents` is pairwise ordered by date. -/
theorem sortEvents_sorted (l s : List Event) (h : sortEvents l = .ok s) :
    s.Pairwise dateLe := by
  obtain ⟨ps, hm, hbr⟩ := sortEvents_ok_inv l s h
  obtain ⟨-, hmem⟩ := mapM_dateKeyed_ok_inv l ps hm
  rcases hbr with ⟨hall, rfl⟩ | ⟨hall, rfl⟩
  · have hperm := List.mergeSort_perm ps leStr
    have hsorted := List.sorted_mergeSort leStr_trans leStr_total ps
    rw [List.pairwise_map]
    refine hsorted.imp_of_mem ?_
    intro p q hpm hqm hle
    have hp' := hmem p (hperm.mem_iff.mp hpm)
    have hq' := hmem q (hperm.mem_iff.mp hqm)
    have hps := List.all_eq_true.mp hall p (hperm.mem_iff.mp hpm)
    have hqs := List.all_eq_true.mp hall q (hperm.mem_iff.mp hqm)
    refine ⟨p.1, q.1, hp', hq', ?_⟩
    exact jvalLe_of_strVal p.1 q.1 hps hqs (by simpa [leStr] using hle)
  · have hperm := List.mergeSort_perm ps leInt
    have hsorted := List.sorted_mergeSort leInt_trans leInt_total ps
    rw [List.pairwise_map]
    refine hsorted.imp_of_mem ?_
    intro p q hpm hqm hle
    have hp' := hmem p (hperm.mem_iff.mp hpm)
    have hq' := hmem q (hperm.mem_iff.mp hqm)
    have hps := List.all_eq_true.mp hall p (hperm.mem_iff.mp hpm)
    have hqs := List.all_eq_true.mp hall q (hperm.mem_iff.mp hqm)
    refine ⟨p.1, q.1, hp', hq', ?_⟩
    refine jvalLe_of_intVal p.1 q.1 ?_ ?_ (by simpa [leInt] using hle)
    · simpa using hps
    · simpa using hqs

/-- Inversion of a successful `runWith` call. -/
theorem runWith_ok_inv (cands c c' : List Event)
    (h : runWith cands c = .ok c') :
    ∃ m n s, crawlEvents c cands = .ok (m, n) ∧ sortEvents m = .ok s ∧
      c' = assignRanks s := by
  simp only [runWith] at h
  cases hc : crawlEvents c cands with
  | error er => rw [hc] at h; simp only [exceptBind_error] at h; cases h
  | ok p =>
    obtain ⟨m, n⟩ := p
    rw [hc] at h
    simp only [exceptBind_ok] at h
    cases hs : sortEvents m with
    | error er => rw [hs] at h; simp only [exceptBind_error] at h; cases h
    | ok s =>
      rw [hs] at h
      simp only [exceptBind_ok, exceptPure_eq_ok, Except.ok.injEq] at h
      exact ⟨m, n, s, rfl, hs, h.symm⟩

/-- C4 (amended): after a successful run, adjacent catalog entries are
ordered by their dates. -/
theorem run_sorted_by_date (cands c c' : List Event)
    (h : runWith cands c = .ok c') : c'.Chain' dateLe := by
  obtain ⟨m, n, s, hcrawl, hsort, rfl⟩ := runWith_ok_inv cands c c' h
  rw [assignRanks_eq_rankFrom]
  refine List.Pairwise.chain' ?_
  exact pairwise_dateLe_congr s (rankFrom 0 s) (getKey_date_rankFrom 0 s)
    (sortEvents_sorted m s hsort)

/-- C4 (counterexample): there is no maximal sentinel for a missing date;
a run over a catalog containing a dateless event raises `KeyError` from the
sort key `lambda x: x['date']` instead of completing with the dateless entry
at the tail. -/
theorem dateless_event_raises :
    runWith [] [evNoDate] = .error .keyError := rfl

/-- A concrete successful run: no candidates, two date-sorted catalog
events. -/
theorem runWith_concrete :
    runWith [] [evICML, evNeurIPS] = .ok (assignRanks [evICML, evNeurIPS]) := by
  have hs : sortEvents [evICML, evNeurIPS] = .ok [evICML, evNeurIPS] := by
    refine sortEvents_of_sorted_str [evICML, evNeurIPS]
      [(.str "2025-07-15", evICML), (.str "2025-12-08", evNeurIPS)] rfl rfl ?_
    refine List.Pairwise.cons ?_ (List.pairwise_singleton _ _)
    intro q hq
    rw [List.mem_singleton] at hq
    subst hq
    simp only [leStr, JVal.strVal, decide_eq_true_eq]
    rw [String.le_iff_toList_le]
    decide
  simp only [runWith, crawlEvents, exceptBind_ok, hs, exceptPure_eq_ok]

theorem run_sorted_by_date_witness :
    List.Chain' dateLe (assignRanks [evICML, evNeurIPS]) :=
  run_sorted_by_date [] [evICML, evNeurIPS] (assignRanks [evICML, evNeurIPS])
    runWith_concrete

/-- C6: after a successful run, the rank field `'#'`, read in catalog order,
is exactly the sequence `1..N`. -/
theorem run_ranks_dense (cands c c' : List Event)
    (h : runWith cands c = .ok c') :
    c'.map (fun e => getKey e "#") =
      (List.range' 1 c'.length).map (fun i => .ok (.int i)) := by
  obtain ⟨m, n, s, hcrawl, hsort, rfl⟩ := runWith_ok_inv cands c c' h
  rw [assignRanks_eq_rankFrom, rankFrom_length]
  exact rankFrom_ranks 0 s

theorem run_ranks_dense_witness :
    (assignRanks [evICML, evNeurIPS]).map (fun e => getKey e "#") =
      (List.range' 1 (assignRanks [evICML, evNeurIPS]).length).map
        (fun i => .ok (.int i)) :=
  run_ranks_dense [] [evICML, evNeurIPS] (assignRanks [evICML, evNeurIPS])
    runWith_concrete

/-! ## Lemmas for idempotence of `run` -/
theorem add_event_ok_inv (c : List Event) (e : Event) (evs : List Event)
    (added : Bool) (h : add_event c e = .ok (evs, added)) :
    ∃ i ids, generate_event_id e = .ok i ∧ catalogIds c = .ok ids ∧
      ((ids.contains i = true ∧ evs = c ∧ added = false) ∨
       (ids.contains i = false ∧ evs = c ++ [e] ∧ added = true)) := by
  cases hb : event_exists e c with
  | error er => simp [add_event, hb] at h
  | ok b =>
    obtain ⟨i, ids, hgi, hci, hbi⟩ := event_exists_ok_inv e c b hb
    refine ⟨i, ids, hgi, hci, ?_⟩
    simp only [add_event, hb, exceptBind_ok] at h
    cases b with
    | true =>
      simp at h
      exact Or.inl ⟨hbi.symm, h.1.symm, h.2⟩
    | false =>
      simp at h
      exact Or.inr ⟨hbi.symm, h.1.symm, h.2⟩

theorem crawlEvents_prefix (cands c m : List Event) (n : Nat)
    (h : crawlEvents c cands = .ok (m, n)) : ∃ suffix, m = c ++ suffix := by
  induction cands generalizing c n with
  | nil =>
    simp only [crawlEvents, Except.ok.injEq, Prod.mk.injEq] at h
    exact ⟨[], by simp [h.1]⟩
  | cons e rest ih =>
    cases ha : add_event c e with
    | error er => simp [crawlEvents, ha] at h
    | ok p =>
      obtain ⟨evs, added⟩ := p
      simp only [crawlEvents, ha, exceptBind_ok] at h
      cases hcr : crawlEvents evs rest with
      | error er => rw [hcr] at h; simp at h
      | ok q =>
        obtain ⟨m', n'⟩ := q
        rw [hcr] at h
        simp only [exceptBind_ok, exceptPure_eq_ok, Except.ok.injEq,
          Prod.mk.injEq] at h
        obtain ⟨rfl, -⟩ := h
        obtain ⟨i, ids, -, -, hcase⟩ := add_event_ok_inv c e evs added ha
        obtain ⟨suf, hsuf⟩ := ih evs n' hcr
        rcases hcase with ⟨-, rfl, -⟩ | ⟨-, rfl, -⟩
        · exact ⟨suf, hsuf⟩
        · exact ⟨[e] ++ suf, by simp [hsuf]⟩

theorem catalogIds_append_inv (l1 l2 : List Event) (ids : List String)
    (h : catalogIds (l1 ++ l2) = .ok ids) :
    ∃ ids1 ids2, catalogIds l1 = .ok ids1 ∧ catalogIds l2 = .ok ids2 ∧
      ids = ids1 ++ ids2 := by
  induction l1 generalizing ids with
  | nil =>
    exact ⟨[], ids, rfl, h, rfl⟩
  | cons e rest ih =>
    rw [List.cons_append] at h
    cases hg : generate_event_id e with
    | error er => simp [catalogIds, hg] at h
    | ok i =>
      cases hr : catalogIds (rest ++ l2) with
      | error er => simp [catalogIds, hg, hr] at h
      | ok ids' =>
        simp only [catalogIds, hg, hr, exceptBind_ok, exceptPure_eq_ok,
          Except.ok.injEq] at h
        obtain ⟨ids1, ids2, h1, h2, h3⟩ := ih ids' hr
        refine ⟨i :: ids1, ids2, ?_, h2, by simp [h.symm, h3]⟩
        simp [catalogIds, hg, h1]

theorem crawl_catalogIds_ok (cands c m : List Event) (n : Nat)
    (h : crawlEvents c cands = .ok (m, n)) (hne : cands ≠ []) :
    ∃ ids, catalogIds m = .ok ids := by
  induction cands generalizing c n with
  | nil => exact absurd rfl hne
  | cons e rest ih =>
    cases ha : add_event c e with
    | error er => simp [crawlEvents, ha] at h
    | ok p =>
      obtain ⟨evs, added⟩ := p
      simp only [crawlEvents, ha, exceptBind_ok] at h
      cases hcr : crawlEvents evs rest with
      | error er => rw [hcr] at h; simp at h
      | ok q =>
        obtain ⟨m', n'⟩ := q
        rw [hcr] at h
        simp only [exceptBind_ok, exceptPure_eq_ok, Except.ok.injEq,
          Prod.mk.injEq] at h
        obtain ⟨rfl, -⟩ := h
        cases rest with
        | nil =>
          simp only [crawlEvents, Except.ok.injEq, Prod.mk.injEq] at hcr
          obtain ⟨rfl, -⟩ := hcr
          obtain ⟨i, ids, hgi, hci, hcase⟩ := add_event_ok_inv c e evs added ha
          rcases hcase with ⟨-, rfl, -⟩ | ⟨-, rfl, -⟩
          · exact ⟨ids, hci⟩
          · exact ⟨ids ++ [i],
              catalogIds_append c [e] ids [i] hci (catalogIds_singleton e i hgi)⟩
        | cons e2 rest2 => exact ih evs n' hcr (by simp)

theorem crawl_ids_present (cands c m : List Event) (n : Nat)
    (h : crawlEvents c cands = .ok (m, n)) :
    ∀ e ∈ cands, ∃ i, generate_event_id e = .ok i ∧
      ∀ ids, catalogIds m = .ok ids → i ∈ ids := by
  induction cands generalizing c n with
  | nil => intro e he; cases he
  | cons e0 rest ih =>
    intro e he
    cases ha : add_event c e0 with
    | error er => simp [crawlEvents, ha] at h
    | ok p =>
      obtain ⟨evs, added⟩ := p
      simp only [crawlEvents, ha, exceptBind_ok] at h
      cases hcr : crawlEvents evs rest with
      | error er => rw [hcr] at h; simp at h
      | ok q =>
        obtain ⟨m', n'⟩ := q
        rw [hcr] at h
        simp only [exceptBind_ok, exceptPure_eq_ok, Except.ok.injEq,
          Prod.mk.injEq] at h
        obtain ⟨rfl, -⟩ := h
        rcases List.mem_cons.mp he with rfl | hrest
        · -- the candidate processed at this step
          obtain ⟨i, ids, hgi, hci, hcase⟩ := add_event_ok_inv c e evs added ha
          refine ⟨i, hgi, ?_⟩
          intro idsm hidsm
          obtain ⟨suf, rfl⟩ := crawlEvents_prefix rest evs m' n' hcr
          obtain ⟨ids1, ids2, hi1, hi2, rfl⟩ :=
            catalogIds_append_inv evs suf idsm hidsm
          have hIn1 : i ∈ ids1 := by
            rcases hcase with ⟨hcont, rfl, -⟩ | ⟨-, rfl, -⟩
            · have : ids = ids1 := by
                rw [hci] at hi1
                exact (Except.ok.injEq _ _).mp hi1
              subst this
              simpa [List.contains, List.elem_eq_mem] using hcont
            · have : ids ++ [i] = ids1 := by
                rw [catalogIds_append c [e] ids [i] hci
                  (catalogIds_singleton e i hgi)] at hi1
                exact (Except.ok.injEq _ _).mp hi1
              rw [← this]
              simp
          exact List.mem_append.mpr (Or.inl hIn1)
        · exact ih evs n' hcr e hrest

theorem catalogIds_perm (l1 l2 : List Event) (hp : l1.Perm l2)
    (ids1 : List String) (h : catalogIds l1 = .ok ids1) :
    ∃ ids2, catalogIds l2 = .ok ids2 ∧ ids1.Perm ids2 := by
  induction hp generalizing ids1 with
  | nil =>
    simp only [catalogIds, Except.ok.injEq] at h
    exact ⟨[], rfl, by simp [h.symm]⟩
  | cons x p ih =>
    rename_i t1 t2
    cases hg : generate_event_id x with
    | error er => simp [catalogIds, hg] at h
    | ok i =>
      cases hr : catalogIds t1 with
      | error er => simp [catalogIds, hg, hr] at h
      | ok idsT =>
        simp only [catalogIds, hg, hr, exceptBind_ok, exceptPure_eq_ok,
          Except.ok.injEq] at h
        obtain ⟨ids2, h2, hperm⟩ := ih idsT hr
        refine ⟨i :: ids2, by simp [catalogIds, hg, h2], ?_⟩
        rw [← h]
        exact List.Perm.cons i hperm
  | swap x y t =>
    cases hgy : generate_event_id y with
    | error er => simp [catalogIds, hgy] at h
    | ok iy =>
      cases hgx : generate_event_id x with
      | error er => simp [catalogIds, hgy, hgx] at h
      | ok ix =>
        cases hrt : catalogIds t with
        | error er => simp [catalogIds, hgy, hgx, hrt] at h
        | ok idsT =>
          simp only [catalogIds, hgy, hgx, hrt, exceptBind_ok,
            exceptPure_eq_ok, Except.ok.injEq] at h
          refine ⟨ix :: iy :: idsT, by simp [catalogIds, hgy, hgx, hrt], ?_⟩
          rw [← h]
          exact List.Perm.swap ix iy idsT
  | trans p1 p2 ih1 ih2 =>
    obtain ⟨idsB, hB, hpermB⟩ := ih1 ids1 h
    obtain ⟨idsC, hC, hpermC⟩ := ih2 idsB hB
    exact ⟨idsC, hC, hpermB.trans hpermC⟩

/-- The output of `sortEvents` is a permutation of its input. -/
theorem sortEvents_perm (l s : List Event) (h : sortEvents l = .ok s) :
    s.Perm l := by
  obtain ⟨ps, hm, hbr⟩ := sortEvents_ok_inv l s h
  have hmap := (mapM_dateKeyed_ok_inv l ps hm).1
  rcases hbr with ⟨-, rfl⟩ | ⟨-, rfl⟩
  · exact hmap ▸ (List.mergeSort_perm ps leStr).map Prod.snd
  · exact hmap ▸ (List.mergeSort_perm ps leInt).map Prod.snd

/-- A candidate list whose fingerprints are all already present leaves the
catalog exactly unchanged and adds nothing. -/
theorem crawl_unchanged (cands c₁ : List Event)
    (hall : ∀ e ∈ cands, ∃ i ids₁, generate_event_id e = .ok i ∧
      catalogIds c₁ = .ok ids₁ ∧ i ∈ ids₁) :
    crawlEvents c₁ cands = .ok (c₁, 0) := by
  induction cands with
  | nil => rfl
  | cons e rest ih =>
    obtain ⟨i, ids₁, hgi, hci, hmem⟩ := hall e (List.mem_cons_self e rest)
    have hadd := add_event_of_mem e c₁ i ids₁ hgi hci hmem
    have hrest := ih fun e' he' => hall e' (List.mem_cons_of_mem e he')
    simp [crawlEvents, hadd, hrest]

theorem pairwise_le_fst_congr (f : JVal → JVal → Bool)
    (ps qs : List (JVal × Event))
    (hf : List.Forall₂
      (fun p q => p.1 = q.1 : JVal × Event → JVal × Event → Prop) ps qs)
    (hp : List.Pairwise (fun p q => f p.1 q.1 = true) ps) :
    List.Pairwise (fun p q => f p.1 q.1 = true) qs := by
  induction hf with
  | nil => exact List.Pairwise.nil
  | cons he hrest ih =>
    rw [List.pairwise_cons] at hp ⊢
    refine ⟨?_, ih hp.2⟩
    intro q' hq'
    obtain ⟨p', hp', hfst⟩ := forall₂_mem_right hrest hq'
    rw [← he, ← hfst]
    exact hp.1 p' hp'

theorem all_fst_congr (g : JVal → Bool) (ps qs : List (JVal × Event))
    (hf : List.Forall₂
      (fun p q => p.1 = q.1 : JVal × Event → JVal × Event → Prop) ps qs)
    (h : ps.all (fun p => g p.1) = true) : qs.all (fun p => g p.1) = true := by
  rw [List.all_eq_true] at h ⊢
  intro q hq
  obtain ⟨p, hp, hfst⟩ := forall₂_mem_right hf hq
  rw [← hfst]
  exact h p hp

/-- C5: running the pipeline a second time over the same adapter outputs
reproduces the first run's catalog exactly — in particular the same set of
fingerprints and the same rank assignment (the stable sort leaves the
already-sorted catalog untouched and every candidate is now a duplicate). -/
theorem run_idempotent (cands c c₁ : List Event)
    (h : runWith cands c = .ok c₁) : runWith cands c₁ = .ok c₁ := by
  obtain ⟨m, n, s, hcrawl, hsort, hc1⟩ := runWith_ok_inv cands c c₁ h
  have hc1' : c₁ = rankFrom 0 s := by rw [hc1, assignRanks_eq_rankFrom]
  have hperm_sm : s.Perm m := sortEvents_perm m s hsort
  have hall : ∀ e ∈ cands, ∃ i ids₁, generate_event_id e = .ok i ∧
      catalogIds c₁ = .ok ids₁ ∧ i ∈ ids₁ := by
    intro e he
    obtain ⟨i, hgi, hmm⟩ := crawl_ids_present cands c m n hcrawl e he
    obtain ⟨idsm, hidsm⟩ := crawl_catalogIds_ok cands c m n hcrawl
      (by intro hh; subst hh; cases he)
    obtain ⟨idss, hidss, hpermids⟩ :=
      catalogIds_perm m s hperm_sm.symm idsm hidsm
    have hidsc1 : catalogIds c₁ = .ok idss := by
      rw [hc1', catalogIds_rankFrom]
      exact hidss
    exact ⟨i, idss, hgi, hidsc1, hpermids.mem_iff.mp (hmm idsm hidsm)⟩
  have hcrawl2 : crawlEvents c₁ cands = .ok (c₁, 0) :=
    crawl_unchanged cands c₁ hall
  obtain ⟨ps, hm, hbr⟩ := sortEvents_ok_inv m s hsort
  obtain ⟨hmap, hmem⟩ := mapM_dateKeyed_ok_inv m ps hm
  have hdates : List.Forall₂
      (fun e e' => getKey e' "date" = getKey e "date") s c₁ := by
    rw [hc1']
    exact getKey_date_rankFrom 0 s
  have hsort2 : sortEvents c₁ = .ok c₁ := by
    rcases hbr with ⟨hall_s, hs_eq⟩ | ⟨hall_s, hs_eq⟩
    · have hmemSorted : ∀ p ∈ ps.mergeSort leStr,
          getKey p.2 "date" = .ok p.1 := fun p hp =>
        hmem p ((List.mergeSort_perm ps leStr).mem_iff.mp hp)
      have hmapS : s.mapM dateKeyed = .ok (ps.mergeSort leStr) := by
        rw [hs_eq]
        exact mapM_dateKeyed_of_pairs _ hmemSorted
      obtain ⟨ps₁, hm1, hfst, hmap1⟩ :=
        mapM_dateKeyed_congr s c₁ hdates (ps.mergeSort leStr) hmapS
      have hallSorted : (ps.mergeSort leStr).all (fun p => p.1.isStr) = true := by
        rw [List.all_eq_true] at hall_s ⊢
        intro p hp
        exact hall_s p ((List.mergeSort_perm ps leStr).mem_iff.mp hp)
      have hall1 : ps₁.all (fun p => p.1.isStr) = true :=
        all_fst_congr _ _ _ hfst hallSorted
      have hsorted1 : List.Pairwise (fun p q => leStr p q = true) ps₁ :=
        pairwise_le_fst_congr (fun u v => u.strVal ≤ v.strVal) _ _ hfst
          (List.sorted_mergeSort leStr_trans leStr_total ps)
      exact sortEvents_of_sorted_str c₁ ps₁ hm1 hall1 hsorted1
    · have hmemSorted : ∀ p ∈ ps.mergeSort leInt,
          getKey p.2 "date" = .ok p.1 := fun p hp =>
        hmem p ((List.mergeSort_perm ps leInt).mem_iff.mp hp)
      have hmapS : s.mapM dateKeyed = .ok (ps.mergeSort leInt) := by
        rw [hs_eq]
        exact mapM_dateKeyed_of_pairs _ hmemSorted
      obtain ⟨ps₁, hm1, hfst, hmap1⟩ :=
        mapM_dateKeyed_congr s c₁ hdates (ps.mergeSort leInt) hmapS
      have hallSorted : (ps.mergeSort leInt).all (fun p => !p.1.isStr) = true := by
        rw [List.all_eq_true] at hall_s ⊢
        intro p hp
        exact hall_s p ((List.mergeSort_perm ps leInt).mem_iff.mp hp)
      have hall1 : ps₁.all (fun p => !p.1.isStr) = true :=
        all_fst_congr (fun u => !u.isStr) _ _ hfst hallSorted
      have hsorted1 : List.Pairwise (fun p q => leInt p q = true) ps₁ :=
        pairwise_le_fst_congr (fun u v => u.intVal ≤ v.intVal) _ _ hfst
          (List.sorted_mergeSort leInt_trans leInt_total ps)
      exact sortEvents_of_sorted_int c₁ ps₁ hm1 hall1 hsorted1
  have hrank2 : assignRanks c₁ = c₁ := by
    rw [assignRanks_eq_rankFrom, hc1', rankFrom_idem]
  simp only [runWith, hcrawl2, exceptBind_ok, hsort2, exceptPure_eq_ok, hrank2]

theorem run_idempotent_witness :
    runWith [] (assignRanks [evICML, evNeurIPS]) =
      .ok (assignRanks [evICML, evNeurIPS]) :=
  run_idempotent [] [evICML, evNeurIPS] (assignRanks [evICML, evNeurIPS])
    runWith_concrete

theorem headPart_eq_nil_iff (l : List Char) : headPart l = [] ↔ '/' ∉ l := by
  induction l with
  | nil => simp [headPart]
  | cons c rest ih =>
    by_cases hr : ('/' : Char) ∈ rest
    · simp [headPart, hr]
    · by_cases hc : c = '/'
      · simp [headPart, hr, hc]
      · simp only [headPart, if_neg hr, if_neg hc]
        simp only [List.mem_cons, true_iff]
        push_neg
        exact ⟨fun h => hc h.symm, hr⟩

theorem dirname_eq_empty_iff (p : String) : dirname p = "" ↔ '/' ∉ p.data := by
  rw [← headPart_eq_nil_iff]
  constructor
  · intro h
    by_contra hne
    have hne' : headPart p.data ≠ [] := hne
    rw [dirname] at h
    simp only [if_neg hne'] at h
    by_cases hall : (headPart p.data).all (fun c => c = '/') = true
    · rw [if_pos hall] at h
      have : p.data ≠ [] → True := fun _ => trivial
      have hmk : (headPart p.data) = [] := by
        have := congrArg String.data h
        simpa using this
      exact hne' hmk
    · rw [if_neg hall] at h
      have hmk : ((headPart p.data).reverse.dropWhile (fun c => c = '/')).reverse = [] := by
        have := congrArg String.data h
        simpa using this
      rw [List.reverse_eq_nil_iff, List.dropWhile_eq_nil_iff] at hmk
      apply hall
      rw [List.all_eq_true]
      intro c hcmem
      have := hmk c (List.mem_reverse.mpr hcmem)
      simpa using this
  · intro h
    rw [dirname, if_pos h]

/-- C10: `save_data` succeeds exactly when the configured path contains a
directory separator; for a bare filename `os.path.dirname` yields `""` and
`os.makedirs("")` raises `FileNotFoundError` before anything is written. -/
theorem save_data_requires_directory (path : String) (events : List Event) :
    ('/' ∉ path.data → save_data path events = .error .fileNotFoundError) ∧
    ('/' ∈ path.data → save_data path events = .ok (dumpCatalog events)) := by
  constructor
  · intro h
    rw [save_data, if_pos ((dirname_eq_empty_iff path).mpr h)]
  · intro h
    rw [save_data, if_neg]
    intro hdir
    exact ((dirname_eq_empty_iff path).mp hdir) h

theorem save_data_requires_directory_witness :
    save_data "events_data.json" [] = .error .fileNotFoundError ∧
    save_data "docs/events_data.json" [] = .ok (dumpCatalog []) :=
  ⟨(save_data_requires_directory "events_data.json" []).1 (by decide),
   (save_data_requires_directory "docs/events_data.json" []).2 (by decide)⟩

/-! ## Round-trip lemmas: strings and numbers -/
theorem skipWs_cons_of_ws (c : Char) (l : List Char) (h : isWs c = true) :
    skipWs (c :: l) = skipWs l := by
  simp [skipWs, h]

theorem skipWs_cons_of_not (c : Char) (l : List Char) (h : isWs c = false) :
    skipWs (c :: l) = c :: l := by
  simp [skipWs, h]

theorem parseStringBody_escape (cs : List Char) (rest : List Char) :
    parseStringBody (cs.flatMap escapeOne ++ '\"' :: rest) = some (cs, rest) := by
  induction cs with
  | nil =>
    rw [List.flatMap_nil, List.nil_append, parseStringBody.eq_def]
    simp
  | cons c cs ih =>
    by_cases hb : c = '\\'
    · subst hb
      simp only [List.flatMap_cons, escapeOne, if_pos rfl, List.append_assoc,
        List.cons_append, List.nil_append]
      rw [parseStringBody.eq_def]
      simp [ih]
    · by_cases hq : c = '\"'
      · subst hq
        simp only [List.flatMap_cons, escapeOne, if_neg hb, if_pos rfl,
          List.append_assoc, List.cons_append, List.nil_append]
        rw [parseStringBody.eq_def]
        simp [ih]
      · simp only [List.flatMap_cons, escapeOne, if_neg hb, if_neg hq,
          List.append_assoc, List.cons_append, List.nil_append]
        rw [parseStringBody.eq_def]
        simp [hq, hb, ih]

theorem digitChar_isDigit (r : Nat) (h : r < 10) :
    (Char.ofNat (48 + r)).isDigit = true := by
  interval_cases r <;> decide

theorem digitChar_toNat (r : Nat) (h : r < 10) :
    (Char.ofNat (48 + r)).toNat = 48 + r := by
  interval_cases r <;> decide

theorem digitChar_not_ws (r : Nat) (h : r < 10) :
    isWs (Char.ofNat (48 + r)) = false := by
  interval_cases r <;> decide

theorem natDigitsRev_shape (fuel m : Nat) :
    ∀ c ∈ natDigitsRev fuel m, ∃ r, r < 10 ∧ c = Char.ofNat (48 + r) := by
  induction fuel generalizing m with
  | zero =>
    intro c hc
    cases m <;> simp [natDigitsRev] at hc
  | succ fuel ih =>
    intro c hc
    cases m with
    | zero => simp [natDigitsRev] at hc
    | succ m' =>
      simp only [natDigitsRev, List.mem_cons] at hc
      rcases hc with rfl | hc
      · exact ⟨(m' + 1) % 10, Nat.mod_lt _ (by omega), rfl⟩
      · exact ih _ c hc

theorem takeDigits_exact (ds rest : List Char)
    (hds : ∀ c ∈ ds, c.isDigit = true) (hrest : headNotDigit rest) :
    takeDigits (ds ++ rest) = (ds, rest) := by
  induction ds with
  | nil =>
    cases rest with
    | nil => rfl
    | cons c rest' =>
      simp only [headNotDigit] at hrest
      simp [takeDigits, hrest]
  | cons d ds ih =>
    have hd := hds d (List.mem_cons_self d ds)
    have hrec := ih fun c hc => hds c (List.mem_cons_of_mem d hc)
    simp [takeDigits, hd, hrec]

theorem digitsToNat_append (ds : List Char) (c : Char) :
    digitsToNat (ds ++ [c]) = digitsToNat ds * 10 + (c.toNat - 48) := by
  simp [digitsToNat, List.foldl_append]

theorem digitsToNat_natDigitsRev (fuel m : Nat) (h : m ≤ fuel) :
    digitsToNat (natDigitsRev fuel m).reverse = m := by
  induction fuel generalizing m with
  | zero =>
    interval_cases m
    simp [natDigitsRev, digitsToNat]
  | succ fuel ih =>
    cases m with
    | zero => simp [natDigitsRev, digitsToNat]
    | succ m' =>
      have hdiv : (m' + 1) / 10 ≤ fuel := by
        have := Nat.div_lt_self (Nat.succ_pos m') (by omega : 1 < 10)
        omega
      simp only [natDigitsRev, List.reverse_cons]
      rw [digitsToNat_append, ih _ hdiv,
        digitChar_toNat ((m' + 1) % 10) (Nat.mod_lt _ (by omega))]
      omega

theorem printNat_digits (n : Nat) : ∀ c ∈ printNat n, c.isDigit = true := by
  intro c hc
  rw [printNat] at hc
  by_cases h0 : n = 0
  · rw [if_pos h0] at hc
    rw [List.mem_singleton] at hc
    subst hc
    decide
  · rw [if_neg h0, List.mem_reverse] at hc
    obtain ⟨r, hr, rfl⟩ := natDigitsRev_shape n n c hc
    exact digitChar_isDigit r hr

theorem printNat_value (n : Nat) : digitsToNat (printNat n) = n := by
  rw [printNat]
  by_cases h0 : n = 0
  · subst h0
    decide
  · rw [if_neg h0]
    exact digitsToNat_natDigitsRev n n le_rfl

theorem stringMk_data (s : String) : String.mk s.data = s := rfl

theorem printNat_ne_nil (n : Nat) : printNat n ≠ [] := by
  rw [printNat]
  by_cases h0 : n = 0
  · simp [h0]
  · rw [if_neg h0]
    intro hrev
    rw [List.reverse_eq_nil_iff] at hrev
    cases hn : n with
    | zero => exact h0 hn
    | succ m =>
      rw [hn] at hrev
      simp [natDigitsRev] at hrev

theorem skipWs_printJVal (v : JVal) (rest : List Char) :
    skipWs (printJVal v ++ rest) = printJVal v ++ rest := by
  cases v with
  | str t =>
    simp only [printJVal, List.cons_append]
    exact skipWs_cons_of_not _ _ (by decide)
  | int n =>
    simp only [printJVal]
    cases hp : printNat n with
    | nil => exact absurd hp (printNat_ne_nil n)
    | cons c cs =>
      have hc : c ∈ printNat n := by
        rw [hp]
        exact List.mem_cons_self c cs
      have hnw : isWs c = false := by
        rw [printNat] at hc
        by_cases h0 : n = 0
        · rw [if_pos h0, List.mem_singleton] at hc
          subst hc
          decide
        · rw [if_neg h0, List.mem_reverse] at hc
          obtain ⟨r, hr, rfl⟩ := natDigitsRev_shape n n c hc
          exact digitChar_not_ws r hr
      rw [List.cons_append]
      exact skipWs_cons_of_not _ _ hnw

theorem parseJVal_print (v : JVal) (rest : List Char)
    (hrest : headNotDigit rest) :
    parseJVal (printJVal v ++ rest) = some (v, rest) := by
  cases v with
  | str t =>
    have hx : printJVal (.str t) ++ rest =
        '\"' :: (t.data.flatMap escapeOne ++ '\"' :: rest) := by
      simp [printJVal, escapeString]
    rw [hx, parseJVal.eq_def]
    simp [parseStringBody_escape t.data rest, stringMk_data]
  | int n =>
    cases hp : printNat n with
    | nil => exact absurd hp (printNat_ne_nil n)
    | cons c cs =>
      have hdigs : ∀ x ∈ c :: cs, x.isDigit = true := by
        rw [← hp]
        exact printNat_digits n
      have hc : c.isDigit = true := hdigs c (List.mem_cons_self c cs)
      have hcq : ¬(c = '\"') := by
        intro h
        subst h
        simp at hc
      simp only [printJVal, hp, List.cons_append]
      rw [parseJVal.eq_def]
      simp only [if_neg hcq, hc, if_true, if_pos]
      have htd : takeDigits (c :: (cs ++ rest)) = (c :: cs, rest) := by
        have := takeDigits_exact (c :: cs) rest hdigs hrest
        simpa using this
      simp only [htd]
      rw [← hp, printNat_value]

theorem parsePair_print (p : String × JVal) (rest : List Char)
    (hrest : headNotDigit rest) :
    parsePair (printPair p ++ rest) = some (p, rest) := by
  obtain ⟨k, v⟩ := p
  have hx : printPair (k, v) ++ rest =
      '\"' :: (k.data.flatMap escapeOne ++
        '\"' :: (':' :: ' ' :: (printJVal v ++ rest))) := by
    simp [printPair, escapeString]
  rw [hx, parsePair]
  rw [skipWs_cons_of_not _ _ (show isWs '\"' = false by decide)]
  simp only [if_pos rfl, parseStringBody_escape]
  rw [skipWs_cons_of_not _ _ (show isWs ':' = false by decide)]
  simp only [if_pos rfl]
  rw [skipWs_cons_of_ws _ _ (show isWs ' ' = true by decide), skipWs_printJVal,
    parseJVal_print v rest hrest]
  simp [stringMk_data]

theorem joinSep_pairs_eq_pairsTail (ps : List (String × JVal)) (p : String × JVal)
    (closing : List Char) :
    joinSep [',', '\n'] ((p :: ps).map fun q =>
      [' ', ' ', ' ', ' '] ++ printPair q) ++ closing =
    [' ', ' ', ' ', ' '] ++ printPair p ++ pairsTail closing ps := by
  induction ps generalizing p with
  | nil => simp [joinSep, pairsTail]
  | cons q qs ih =>
    simp only [List.map_cons, joinSep, List.append_assoc, List.cons_append] at ih ⊢
    rw [ih q]
    simp [pairsTail]

theorem pairsTail_headNotDigit (ps : List (String × JVal)) (closing : List Char)
    (h : headNotDigit closing) : headNotDigit (pairsTail closing ps) := by
  cases ps with
  | nil => exact h
  | cons p ps => simp [pairsTail, headNotDigit]

theorem parsePair_cons_ws (c : Char) (l : List Char) (h : isWs c = true) :
    parsePair (c :: l) = parsePair l := by
  rw [parsePair, parsePair, skipWs_cons_of_ws c l h]

theorem parsePairsRest_print (ps : List (String × JVal)) (fuel : Nat)
    (hfuel : ps.length < fuel) (rest : List Char) :
    parsePairsRest fuel (pairsTail ('\n' :: ' ' :: ' ' :: rcurl :: rest) ps) =
      some (ps, rest) := by
  induction ps generalizing fuel with
  | nil =>
    cases fuel with
    | zero => omega
    | succ f =>
      rw [pairsTail, parsePairsRest]
      rw [skipWs_cons_of_ws _ _ (by decide), skipWs_cons_of_ws _ _ (by decide),
        skipWs_cons_of_ws _ _ (by decide),
        skipWs_cons_of_not _ _ (show isWs rcurl = false by decide)]
      simp
  | cons p ps ih =>
    cases fuel with
    | zero => omega
    | succ f =>
      rw [pairsTail, parsePairsRest]
      rw [skipWs_cons_of_not _ _ (show isWs ',' = false by decide)]
      have htail : headNotDigit
          (pairsTail ('\n' :: ' ' :: ' ' :: rcurl :: rest) ps) :=
        pairsTail_headNotDigit ps _ (by simp [headNotDigit])
      have h1 : parsePair ('\n' :: ' ' :: ' ' :: ' ' :: ' ' ::
          (printPair p ++ pairsTail ('\n' :: ' ' :: ' ' :: rcurl :: rest) ps)) =
          some (p, pairsTail ('\n' :: ' ' :: ' ' :: rcurl :: rest) ps) := by
        rw [parsePair_cons_ws _ _ (by decide), parsePair_cons_ws _ _ (by decide),
          parsePair_cons_ws _ _ (by decide), parsePair_cons_ws _ _ (by decide),
          parsePair_cons_ws _ _ (by decide)]
        exact parsePair_print p _ htail
      have h2 := ih f (by simpa using Nat.lt_of_succ_lt_succ hfuel)
      simp [h1, h2]
      decide

theorem parseObject_print (e : Event) (fuel : Nat) (hfuel : e.length ≤ fuel)
    (rest : List Char) :
    parseObject fuel (printEvent e ++ rest) = some (e, rest) := by
  cases e with
  | nil =>
    have hx : printEvent [] ++ rest = lcurl :: rcurl :: rest := by
      simp [printEvent]
    rw [hx, parseObject]
    rw [skipWs_cons_of_not _ _ (show isWs lcurl = false by decide)]
    simp [skipWs_cons_of_not rcurl rest (show isWs rcurl = false by decide)]
  | cons p ps =>
    have hclosing : headNotDigit
        (pairsTail ('\n' :: ' ' :: ' ' :: rcurl :: rest) ps) :=
      pairsTail_headNotDigit ps _ (by simp [headNotDigit])
    have hx : printEvent (p :: ps) ++ rest =
        lcurl :: '\n' :: ' ' :: ' ' :: ' ' :: ' ' ::
          (printPair p ++ pairsTail ('\n' :: ' ' :: ' ' :: rcurl :: rest) ps) := by
      show ([lcurl, '\n'] ++
        joinSep [',', '\n'] ((p :: ps).map fun q =>
          [' ', ' ', ' ', ' '] ++ printPair q) ++
        ['\n', ' ', ' ', rcurl]) ++ rest = _
      rw [List.append_assoc, List.append_assoc,
        joinSep_pairs_eq_pairsTail ps p (['\n', ' ', ' ', rcurl] ++ rest)]
      simp
    obtain ⟨Z, hZ⟩ : ∃ Z,
        printPair p ++ pairsTail ('\n' :: ' ' :: ' ' :: rcurl :: rest) ps =
          '\"' :: Z := by
      refine ⟨p.1.data.flatMap escapeOne ++ '\"' :: ':' :: ' ' ::
        (printJVal p.2 ++ pairsTail ('\n' :: ' ' :: ' ' :: rcurl :: rest) ps), ?_⟩
      simp [printPair, escapeString, List.append_assoc]
    have h1 : parsePair ('\"' :: Z) =
        some (p, pairsTail ('\n' :: ' ' :: ' ' :: rcurl :: rest) ps) := by
      rw [← hZ]
      exact parsePair_print p _ hclosing
    have h2 : parsePairsRest fuel
        (pairsTail ('\n' :: ' ' :: ' ' :: rcurl :: rest) ps) = some (ps, rest) :=
      parsePairsRest_print ps fuel (by simpa using hfuel) rest
    have hskip : skipWs ('\n' :: ' ' :: ' ' :: ' ' :: ' ' :: '\"' :: Z) =
        '\"' :: Z := by
      rw [skipWs_cons_of_ws _ _ (by decide), skipWs_cons_of_ws _ _ (by decide),
        skipWs_cons_of_ws _ _ (by decide), skipWs_cons_of_ws _ _ (by decide),
        skipWs_cons_of_ws _ _ (by decide)]
      exact skipWs_cons_of_not _ _ (by decide)
    rw [hx, parseObject]
    rw [skipWs_cons_of_not _ _ (show isWs lcurl = false by decide)]
    rw [hZ]
    simp [hskip, h1, h2]
    decide

theorem joinSep_items_eq_itemsTail (es : List Event) (e : Event)
    (closing : List Char) :
    joinSep [',', '\n'] ((e :: es).map fun x => [' ', ' '] ++ printEvent x) ++
      closing = [' ', ' '] ++ printEvent e ++ itemsTail closing es := by
  induction es generalizing e with
  | nil => simp [joinSep, itemsTail]
  | cons f fs ih =>
    simp only [List.map_cons, joinSep, List.append_assoc, List.cons_append] at ih ⊢
    rw [ih f]
    simp [itemsTail]

theorem parseObject_cons_ws (fuel : Nat) (c : Char) (l : List Char)
    (h : isWs c = true) : parseObject fuel (c :: l) = parseObject fuel l := by
  rw [parseObject, parseObject, skipWs_cons_of_ws c l h]

theorem parseItemsRest_print (es : List Event) (fuel : Nat) (itemFuel : Nat)
    (hif : es.length < itemFuel) (hef : ∀ e ∈ es, e.length ≤ fuel)
    (rest : List Char) :
    parseItemsRest fuel itemFuel (itemsTail ('\n' :: ']' :: rest) es) =
      some (es, rest) := by
  induction es generalizing itemFuel with
  | nil =>
    cases itemFuel with
    | zero => omega
    | succ f =>
      rw [itemsTail, parseItemsRest]
      rw [skipWs_cons_of_ws _ _ (by decide),
        skipWs_cons_of_not _ _ (show isWs ']' = false by decide)]
      simp
  | cons e es ih =>
    cases itemFuel with
    | zero => omega
    | succ f =>
      rw [itemsTail, parseItemsRest]
      rw [skipWs_cons_of_not _ _ (show isWs ',' = false by decide)]
      have h1 : parseObject fuel ('\n' :: ' ' :: ' ' ::
          (printEvent e ++ itemsTail ('\n' :: ']' :: rest) es)) =
          some (e, itemsTail ('\n' :: ']' :: rest) es) := by
        rw [parseObject_cons_ws _ _ _ (by decide),
          parseObject_cons_ws _ _ _ (by decide),
          parseObject_cons_ws _ _ _ (by decide)]
        exact parseObject_print e fuel (hef e (List.mem_cons_self e es)) _
      have h2 := ih f (by simpa using Nat.lt_of_succ_lt_succ hif)
        (fun x hx => hef x (List.mem_cons_of_mem e hx))
      simp [h1, h2]

theorem joinSep_length_ge_count (sep : List Char) (xs : List (List Char))
    (h : ∀ x ∈ xs, x ≠ []) : xs.length ≤ (joinSep sep xs).length := by
  induction xs with
  | nil => simp [joinSep]
  | cons x ys ih =>
    cases ys with
    | nil =>
      have hx := h x (List.mem_cons_self x [])
      cases x with
      | nil => exact absurd rfl hx
      | cons c cs => simp [joinSep]
    | cons y zs =>
      have hrec := ih fun z hz => h z (List.mem_cons_of_mem x hz)
      have hx := h x (List.mem_cons_self x _)
      have hxlen : 1 ≤ x.length := by
        cases x with
        | nil => exact absurd rfl hx
        | cons c cs => simp
      simp only [joinSep, List.length_append, List.length_cons] at hrec ⊢
      omega

theorem joinSep_length_ge_mem (sep : List Char) (xs : List (List Char))
    (x : List Char) (hx : x ∈ xs) : x.length ≤ (joinSep sep xs).length := by
  induction xs with
  | nil => cases hx
  | cons y ys ih =>
    rcases List.mem_cons.mp hx with rfl | hx'
    · cases ys with
      | nil => simp [joinSep]
      | cons z zs => simp [joinSep]
    · cases ys with
      | nil => cases hx'
      | cons z zs =>
        have := ih hx'
        simp only [joinSep, List.length_append] at this ⊢
        omega

theorem printEvent_length_ge (e : Event) : e.length ≤ (printEvent e).length := by
  cases e with
  | nil => simp [printEvent]
  | cons p ps =>
    have hcount := joinSep_length_ge_count [',', '\n']
      ((p :: ps).map fun q => [' ', ' ', ' ', ' '] ++ printPair q)
      (by intro x hx; simp only [List.mem_map] at hx; obtain ⟨q, -, rfl⟩ := hx; simp)
    have : printEvent (p :: ps) = [lcurl, '\n'] ++
        joinSep [',', '\n'] ((p :: ps).map fun q =>
          [' ', ' ', ' ', ' '] ++ printPair q) ++ ['\n', ' ', ' ', rcurl] := by
      simp [printEvent]
    rw [this]
    simp only [List.length_append, List.length_map] at hcount ⊢
    omega

theorem dumpChars_length_ge_count (events : List Event) :
    events.length ≤ (dumpChars events).length := by
  cases events with
  | nil => simp [dumpChars]
  | cons e es =>
    have hcount := joinSep_length_ge_count [',', '\n']
      ((e :: es).map fun x => [' ', ' '] ++ printEvent x)
      (by intro x hx; simp only [List.mem_map] at hx; obtain ⟨q, -, rfl⟩ := hx; simp)
    have : dumpChars (e :: es) = ['[', '\n'] ++
        joinSep [',', '\n'] ((e :: es).map fun x =>
          [' ', ' '] ++ printEvent x) ++ ['\n', ']'] := by
      simp [dumpChars]
    rw [this]
    simp only [List.length_append, List.length_map] at hcount ⊢
    omega

theorem dumpChars_length_ge_event (events : List Event) (e : Event)
    (he : e ∈ events) : e.length ≤ (dumpChars events).length := by
  cases events with
  | nil => cases he
  | cons f fs =>
    have hmem : ([' ', ' '] ++ printEvent e) ∈
        ((f :: fs).map fun x => [' ', ' '] ++ printEvent x) :=
      List.mem_map.mpr ⟨e, he, rfl⟩
    have hjoin := joinSep_length_ge_mem [',', '\n'] _ _ hmem
    have hev := printEvent_length_ge e
    have : dumpChars (f :: fs) = ['[', '\n'] ++
        joinSep [',', '\n'] ((f :: fs).map fun x =>
          [' ', ' '] ++ printEvent x) ++ ['\n', ']'] := by
      simp [dumpChars]
    rw [this]
    simp only [List.length_append] at hjoin ⊢
    omega

theorem printEvent_head (e : Event) (X : List Char) :
    ∃ W, printEvent e ++ X = lcurl :: W := by
  cases e with
  | nil => exact ⟨rcurl :: X, by simp [printEvent]⟩
  | cons p ps =>
    refine ⟨'\n' :: (joinSep [',', '\n'] ((p :: ps).map fun q =>
      [' ', ' ', ' ', ' '] ++ printPair q) ++ ['\n', ' ', ' ', rcurl] ++ X), ?_⟩
    simp [printEvent, List.append_assoc]

theorem parseCatalogChars_dump (events : List Event) (fuel : Nat)
    (hcount : events.length ≤ fuel) (hef : ∀ e ∈ events, e.length ≤ fuel) :
    parseCatalogChars fuel (dumpChars events) = some events := by
  cases events with
  | nil =>
    rw [show dumpChars [] = ['[', ']'] by simp [dumpChars], parseCatalogChars]
    rw [skipWs_cons_of_not _ _ (show isWs '[' = false by decide)]
    simp [skipWs_cons_of_not ']' [] (by decide), show skipWs [] = [] from rfl]
  | cons e es =>
    have hx : dumpChars (e :: es) =
        '[' :: '\n' :: ' ' :: ' ' ::
          (printEvent e ++ itemsTail ('\n' :: ']' :: []) es) := by
      show ['[', '\n'] ++
        joinSep [',', '\n'] ((e :: es).map fun x => [' ', ' '] ++ printEvent x) ++
        ['\n', ']'] = _
      rw [List.append_assoc,
        joinSep_items_eq_itemsTail es e ('\n' :: ']' :: [])]
      simp
    obtain ⟨W, hW⟩ := printEvent_head e (itemsTail ('\n' :: ']' :: []) es)
    have hskip : skipWs ('\n' :: ' ' :: ' ' :: lcurl :: W) = lcurl :: W := by
      rw [skipWs_cons_of_ws _ _ (by decide), skipWs_cons_of_ws _ _ (by decide),
        skipWs_cons_of_ws _ _ (by decide)]
      exact skipWs_cons_of_not _ _ (by decide)
    have h1 : parseObject fuel (lcurl :: W) =
        some (e, itemsTail ('\n' :: ']' :: []) es) := by
      rw [← hW]
      exact parseObject_print e fuel (hef e (List.mem_cons_self e es)) _
    have h2 : parseItemsRest fuel fuel (itemsTail ('\n' :: ']' :: []) es) =
        some (es, []) :=
      parseItemsRest_print es fuel fuel (by simp at hcount; omega)
        (fun x hx => hef x (List.mem_cons_of_mem e hx)) []
    rw [hx, parseCatalogChars]
    rw [skipWs_cons_of_not _ _ (show isWs '[' = false by decide)]
    rw [hW]
    simp [hskip, h1, h2, show skipWs [] = [] from rfl,
      show lcurl ≠ ']' by decide]

theorem lor_c0 (b : Nat) (hb : b < 32) : 0xc0 ||| b = 0xc0 + b := by
  interval_cases b <;> rfl

theorem lor_80 (b : Nat) (hb : b < 64) : 0x80 ||| b = 0x80 + b := by
  interval_cases b <;> rfl

theorem lor_e0 (b : Nat) (hb : b < 16) : 0xe0 ||| b = 0xe0 + b := by
  interval_cases b <;> rfl

theorem lor_f0 (b : Nat) (hb : b < 8) : 0xf0 ||| b = 0xf0 + b := by
  interval_cases b <;> rfl

theorem and_3f (n : Nat) : n &&& 0x3f = n % 64 :=
  Nat.and_pow_two_sub_one_eq_mod n 6

theorem shr_eq_div (n k : Nat) : n >>> k = n / 2 ^ k :=
  Nat.shiftRight_eq_div_pow n k

theorem char_toNat_valid (c : Char) :
    c.toNat < 0xd800 ∨ (0xdfff < c.toNat ∧ c.toNat < 0x110000) := by
  have h := c.valid
  rw [UInt32.isValidChar] at h
  rcases h with h | ⟨h1, h2⟩
  · exact Or.inl h
  · exact Or.inr ⟨h1, h2⟩

/-- The UTF-8 encoder, written with quotients and remainders. -/
theorem utf8Encode_eq_arith (c : Char) :
    utf8Encode c =
      if c.toNat < 0x80 then [c.toNat]
      else if c.toNat < 0x800 then [0xc0 + c.toNat / 64, 0x80 + c.toNat % 64]
      else if c.toNat < 0x10000 then
        [0xe0 + c.toNat / 4096, 0x80 + c.toNat / 64 % 64, 0x80 + c.toNat % 64]
      else
        [0xf0 + c.toNat / 262144, 0x80 + c.toNat / 4096 % 64,
         0x80 + c.toNat / 64 % 64, 0x80 + c.toNat % 64] := by
  have hval : c.toNat < 0x110000 := by
    rcases char_toNat_valid c with h | ⟨-, h⟩ <;> omega
  rw [utf8Encode]
  by_cases h1 : c.toNat < 0x80
  · rw [if_pos h1, if_pos h1]
  · rw [if_neg h1, if_neg h1]
    by_cases h2 : c.toNat < 0x800
    · rw [if_pos h2, if_pos h2]
      simp only [shr_eq_div, and_3f]
      rw [lor_c0 _ (by omega), lor_80 _ (by omega)]
      norm_num
    · rw [if_neg h2, if_neg h2]
      by_cases h3 : c.toNat < 0x10000
      · rw [if_pos h3, if_pos h3]
        simp only [shr_eq_div, and_3f]
        rw [lor_e0 _ (by omega), lor_80 _ (by omega), lor_80 _ (by omega)]
        norm_num
      · rw [if_neg h3, if_neg h3]
        simp only [shr_eq_div, and_3f]
        rw [lor_f0 _ (by omega), lor_80 _ (by omega), lor_80 _ (by omega),
          lor_80 _ (by omega)]
        norm_num

theorem utf8Encode_length_pos (c : Char) : 0 < (utf8Encode c).length := by
  rw [utf8Encode_eq_arith]
  split_ifs <;> simp

theorem length_le_flatBytes (cs : List Char) :
    cs.length ≤ (cs.flatMap utf8Encode).length := by
  induction cs with
  | nil => simp
  | cons c cs ih =>
    have := utf8Encode_length_pos c
    simp only [List.flatMap_cons, List.length_append, List.length_cons]
    omega

theorem utf8DecodeList_encode (cs : List Char) :
    ∀ fuel, cs.length ≤ fuel →
      utf8DecodeList fuel (cs.flatMap utf8Encode) = some cs := by
  induction cs with
  | nil => intro fuel _; cases fuel <;> rfl
  | cons c cs ih =>
    intro fuel hfuel
    cases fuel with
    | zero => simp at hfuel
    | succ fuel =>
      have hrec := ih fuel (by simp at hfuel; omega)
      have hlt : c.toNat < 0x110000 := by
        rcases char_toNat_valid c with h | ⟨-, h⟩ <;> omega
      have hns : c.toNat < 0xd800 ∨ 0xdfff < c.toNat := by
        rcases char_toNat_valid c with h | ⟨h, -⟩ <;> omega
      rw [List.flatMap_cons, utf8Encode_eq_arith]
      by_cases h1 : c.toNat < 0x80
      · rw [if_pos h1]
        simp only [List.append_eq, List.cons_append, List.nil_append,
          utf8DecodeList, if_pos h1]
        rw [hrec]
        simp [Char.ofNat_toNat]
      · rw [if_neg h1]
        by_cases h2 : c.toNat < 0x800
        · rw [if_pos h2]
          simp only [List.append_eq, List.cons_append, List.nil_append,
            utf8DecodeList, utf8Cont2]
          have hcp : (0xc0 + c.toNat / 64 - 0xc0) * 64 +
              (0x80 + c.toNat % 64 - 0x80) = c.toNat := by omega
          rw [if_neg (by omega), if_neg (by omega), if_pos (by omega),
            if_pos (by omega), hcp, if_pos (by omega), hrec]
          simp [Char.ofNat_toNat]
        · by_cases h3 : c.toNat < 0x10000
          · rw [if_neg h2, if_pos h3]
            simp only [List.append_eq, List.cons_append, List.nil_append,
              utf8DecodeList, utf8Cont3]
            have hcp : (0xe0 + c.toNat / 4096 - 0xe0) * 4096 +
                (0x80 + c.toNat / 64 % 64 - 0x80) * 64 +
                (0x80 + c.toNat % 64 - 0x80) = c.toNat := by omega
            rw [if_neg (by omega), if_neg (by omega), if_neg (by omega),
              if_pos (by omega), if_pos (by omega), hcp,
              if_pos (by omega), hrec]
            simp [Char.ofNat_toNat]
          · rw [if_neg h2, if_neg h3]
            simp only [List.append_eq, List.cons_append, List.nil_append,
              utf8DecodeList, utf8Cont4]
            have hcp : (0xf0 + c.toNat / 262144 - 0xf0) * 262144 +
                (0x80 + c.toNat / 4096 % 64 - 0x80) * 4096 +
                (0x80 + c.toNat / 64 % 64 - 0x80) * 64 +
                (0x80 + c.toNat % 64 - 0x80) = c.toNat := by omega
            rw [if_neg (by omega), if_neg (by omega), if_neg (by omega),
              if_neg (by omega), if_pos (by omega), if_pos (by omega), hcp,
              if_pos (by omega), hrec]
            simp [Char.ofNat_toNat]

theorem utf8Decode_strBytes (s : String) : utf8Decode (strBytes s) = some s := by
  rw [utf8Decode, strBytes,
    utf8DecodeList_encode s.data _ (length_le_flatBytes s.data)]
  simp [stringMk_data]

theorem numStop_headNotDigit (s : List Char) (h : numStop s) :
    headNotDigit s := by
  cases s with
  | nil => trivial
  | cons c r => exact h.1

theorem skipString_escape (cs : List Char) (h : ∀ c ∈ cs, 32 ≤ c.toNat)
    (rest : List Char) :
    skipString (cs.flatMap escapeOne ++ '\"' :: rest) = some rest := by
  induction cs with
  | nil =>
    rw [List.flatMap_nil, List.nil_append, skipString.eq_def]
    simp
  | cons c cs ih =>
    have hc := h c (List.mem_cons_self c cs)
    have hrec := ih fun x hx => h x (List.mem_cons_of_mem c hx)
    by_cases hb : c = '\\'
    · subst hb
      simp only [List.flatMap_cons, escapeOne, if_pos rfl, List.append_assoc,
        List.cons_append, List.nil_append]
      rw [skipString.eq_def]
      simp [hrec]
    · by_cases hq : c = '\"'
      · subst hq
        simp only [List.flatMap_cons, escapeOne, if_neg hb, if_pos rfl,
          List.append_assoc, List.cons_append, List.nil_append]
        rw [skipString.eq_def]
        simp [hrec]
      · have h32 : ¬ c.toNat < 32 := by omega
        simp only [List.flatMap_cons, escapeOne, if_neg hb, if_neg hq,
          List.append_assoc, List.cons_append, List.nil_append]
        rw [skipString.eq_def]
        simp [hq, hb, h32, hrec]

theorem skipDigits_exact (ds rest : List Char)
    (hds : ∀ c ∈ ds, c.isDigit = true) (hrest : headNotDigit rest) :
    skipDigits (ds ++ rest) = rest := by
  induction ds with
  | nil =>
    cases rest with
    | nil => rfl
    | cons c r =>
      simp only [headNotDigit] at hrest
      simp [skipDigits, hrest]
  | cons d ds ih =>
    have hd := hds d (List.mem_cons_self d ds)
    simp [skipDigits, hd, ih fun c hc => hds c (List.mem_cons_of_mem d hc)]

theorem skipFracOpt_stop (s : List Char) (h : numStop s) : skipFracOpt s = s := by
  cases s with
  | nil => rfl
  | cons c r =>
    have h' : c.isDigit = false ∧ c ≠ '.' ∧ c ≠ 'e' ∧ c ≠ 'E' := h
    simp [skipFracOpt, h'.2.1]

theorem skipExpOpt_stop (s : List Char) (h : numStop s) : skipExpOpt s = s := by
  cases s with
  | nil => rfl
  | cons c r =>
    have h' : c.isDigit = false ∧ c ≠ '.' ∧ c ≠ 'e' ∧ c ≠ 'E' := h
    simp [skipExpOpt, h'.2.2.1, h'.2.2.2]

theorem natDigitsRev_reverse_head (fuel : Nat) :
    ∀ m, 1 ≤ m → m ≤ fuel →
      ∃ d ds, (natDigitsRev fuel m).reverse = d :: ds ∧ d.isDigit = true ∧
        d ≠ '0' := by
  induction fuel with
  | zero => intro m h1 h2; omega
  | succ fuel ih =>
    intro m h1 h2
    obtain ⟨m', rfl⟩ : ∃ k, m = k + 1 := ⟨m - 1, by omega⟩
    rw [show natDigitsRev (fuel + 1) (m' + 1) =
      Char.ofNat (48 + (m' + 1) % 10) :: natDigitsRev fuel ((m' + 1) / 10)
      from rfl]
    by_cases hq : (m' + 1) / 10 = 0
    · rw [hq]
      have h0 : natDigitsRev fuel 0 = [] := by cases fuel <;> rfl
      rw [h0]
      refine ⟨Char.ofNat (48 + (m' + 1) % 10), [], by simp,
        digitChar_isDigit ((m' + 1) % 10) (Nat.mod_lt _ (by omega)), ?_⟩
      intro hEq
      have ht := digitChar_toNat ((m' + 1) % 10) (Nat.mod_lt _ (by omega))
      rw [hEq] at ht
      have hz : ('0' : Char).toNat = 48 := rfl
      omega
    · obtain ⟨d, ds, hds, hd1, hd2⟩ := ih ((m' + 1) / 10) (by omega)
        (by omega)
      refine ⟨d, ds ++ [Char.ofNat (48 + (m' + 1) % 10)], ?_, hd1, hd2⟩
      rw [List.reverse_cons, hds]
      rfl

theorem printNat_pos_head (n : Nat) (h : 1 ≤ n) :
    ∃ d ds, printNat n = d :: ds ∧ d.isDigit = true ∧ d ≠ '0' ∧
      ∀ c ∈ ds, c.isDigit = true := by
  rw [printNat, if_neg (by omega)]
  obtain ⟨d, ds, hds, hd1, hd0⟩ := natDigitsRev_reverse_head n n h (le_refl n)
  refine ⟨d, ds, hds, hd1, hd0, ?_⟩
  intro c hc
  have hmem : c ∈ (natDigitsRev n n).reverse := by
    rw [hds]
    exact List.mem_cons_of_mem d hc
  rw [List.mem_reverse] at hmem
  obtain ⟨r, hr, rfl⟩ := natDigitsRev_shape n n c hmem
  exact digitChar_isDigit r hr

theorem printNat_head_digit (n : Nat) :
    ∃ d ds, printNat n = d :: ds ∧ d.isDigit = true ∧
      ∀ c ∈ ds, c.isDigit = true := by
  by_cases h0 : n = 0
  · subst h0
    exact ⟨Char.ofNat 48, [], rfl, by decide, by intro c hc; cases hc⟩
  · obtain ⟨d, ds, hds, hd1, -, hdig⟩ := printNat_pos_head n (by omega)
    exact ⟨d, ds, hds, hd1, hdig⟩

theorem skipIntDigits_printNat (n : Nat) (rest : List Char)
    (hrest : headNotDigit rest) :
    skipIntDigits (printNat n ++ rest) = some rest := by
  by_cases h0 : n = 0
  · subst h0
    rw [show printNat 0 = [Char.ofNat 48] from rfl, List.singleton_append]
    simp [skipIntDigits, show Char.ofNat 48 = '0' from rfl]
  · obtain ⟨d, ds, hds, hd1, hd0, hdig⟩ := printNat_pos_head n (by omega)
    rw [hds, List.cons_append]
    simp only [skipIntDigits, if_neg hd0, if_pos hd1]
    rw [skipDigits_exact ds rest hdig hrest]

theorem skipNumTail_printNat (n : Nat) (rest : List Char)
    (hstop : numStop rest) :
    skipNumTail (printNat n ++ rest) = some rest := by
  rw [skipNumTail, skipIntDigits_printNat n rest (numStop_headNotDigit rest hstop)]
  simp only [Option.map_some']
  rw [skipFracOpt_stop rest hstop, skipExpOpt_stop rest hstop]

theorem isDigit_not_ws (c : Char) (h : c.isDigit = true) : isWs c = false := by
  by_contra hw
  have hw' : isWs c = true := by
    cases hval : isWs c
    · exact absurd hval hw
    · rfl
  rw [isWs] at hw'
  simp only [Bool.or_eq_true, decide_eq_true_eq] at hw'
  rcases hw' with ((rfl | rfl) | rfl) | rfl <;> exact absurd h (by decide)

theorem isDigit_ne (c x : Char) (h : c.isDigit = true)
    (hx : x.isDigit = false) : c ≠ x := by
  intro hEq
  rw [hEq, hx] at h
  cases h

theorem skipWs_idem (s : List Char) : skipWs (skipWs s) = skipWs s := by
  induction s with
  | nil => rfl
  | cons c r ih =>
    cases hval : isWs c
    · rw [skipWs_cons_of_not c r hval, skipWs_cons_of_not c r hval]
    · rw [skipWs_cons_of_ws c r hval, ih]

theorem jsonSkip_value_ws (fuel : Nat) (s : List Char) :
    jsonSkip (fuel + 1) .value s = jsonSkip (fuel + 1) .value (skipWs s) := by
  rw [jsonSkip, jsonSkip, skipWs_idem]

theorem jsonSkip_elems_ws (fuel : Nat) (w : Char) (s : List Char)
    (hw : isWs w = true) :
    jsonSkip (fuel + 2) .elems (w :: s) = jsonSkip (fuel + 2) .elems s := by
  rw [jsonSkip]
  rw [jsonSkip_value_ws fuel (w :: s), skipWs_cons_of_ws w s hw,
    ← jsonSkip_value_ws fuel s]
  conv_rhs => rw [jsonSkip]

theorem jsonValue_scalar (v : JVal) (fuel : Nat) (rest : List Char)
    (hv : jvalCtrlFree v) (hstop : numStop rest) :
    jsonSkip (fuel + 1) .value (printJVal v ++ rest) = some rest := by
  cases v with
  | str t =>
    have hv' : ctrlFree t := hv
    simp only [printJVal, List.cons_append, List.append_assoc,
      List.singleton_append]
    rw [jsonSkip, skipWs_cons_of_not _ _ (by decide)]
    simp only []
    rw [if_neg (by decide), if_neg (by decide), if_pos trivial,
      List.nil_append]
    exact skipString_escape t.data hv' rest
  | int n =>
    simp only [printJVal]
    obtain ⟨d, ds, hds, hd1, hdig⟩ := printNat_head_digit n
    rw [hds, List.cons_append, jsonSkip,
      skipWs_cons_of_not _ _ (isDigit_not_ws d hd1)]
    simp only []
    rw [if_neg (isDigit_ne d lcurl hd1 (by decide)),
      if_neg (isDigit_ne d '[' hd1 (by decide)),
      if_neg (isDigit_ne d '\"' hd1 (by decide)),
      if_neg (isDigit_ne d 't' hd1 (by decide)),
      if_neg (isDigit_ne d 'f' hd1 (by decide)),
      if_neg (isDigit_ne d 'n' hd1 (by decide)),
      if_neg (isDigit_ne d 'N' hd1 (by decide)),
      if_neg (isDigit_ne d 'I' hd1 (by decide)),
      if_neg (isDigit_ne d '-' hd1 (by decide))]
    rw [← List.cons_append, ← hds]
    exact skipNumTail_printNat n rest hstop

theorem skipString_escapeString (t : String) (h : ctrlFree t)
    (rest : List Char) :
    skipString (escapeString t ++ '\"' :: rest) = some rest :=
  skipString_escape t.data h rest

theorem jsonMembers_pair (p : String × JVal) (f : Nat) (tail : List Char)
    (hk : ctrlFree p.1) (hv : jvalCtrlFree p.2) (hstop : numStop tail) :
    jsonSkip (f + 2) .members (printPair p ++ tail) =
      match skipWs tail with
      | [] => none
      | c3 :: r4 =>
        if c3 = ',' then jsonSkip (f + 1) .members (skipWs r4)
        else if c3 = rcurl then some r4
        else none := by
  have hpp : printPair p ++ tail =
      '\"' :: (escapeString p.1 ++
        ('\"' :: ':' :: ' ' :: (printJVal p.2 ++ tail))) := by
    simp [printPair, List.append_assoc]
  rw [hpp, jsonSkip]
  simp only []
  rw [if_pos (by trivial), skipString_escapeString p.1 hk _]
  simp only []
  rw [skipWs_cons_of_not _ _ (by decide)]
  simp only []
  rw [if_pos (by trivial)]
  have hval : jsonSkip (f + 1) .value (' ' :: (printJVal p.2 ++ tail)) =
      some tail := by
    rw [jsonSkip_value_ws, skipWs_cons_of_ws _ _ (by decide), skipWs_printJVal]
    exact jsonValue_scalar p.2 f tail hv hstop
  rw [hval]

theorem jsonMembers_accept (ps : List (String × JVal)) :
    ∀ p fuel rest, ctrlFree p.1 → jvalCtrlFree p.2 →
      (∀ q ∈ ps, ctrlFree q.1 ∧ jvalCtrlFree q.2) →
      ps.length + 2 ≤ fuel →
      jsonSkip fuel .members
        (printPair p ++ (pairsTail ['\n', ' ', ' ', rcurl] ps ++ rest)) =
        some rest := by
  induction ps with
  | nil =>
    intro p fuel rest hk hv _ hfuel
    obtain ⟨f, rfl⟩ : ∃ f, fuel = f + 2 := ⟨fuel - 2, by omega⟩
    rw [show pairsTail ['\n', ' ', ' ', rcurl] [] ++ rest =
      '\n' :: ' ' :: ' ' :: rcurl :: rest from rfl]
    rw [jsonMembers_pair p f ('\n' :: ' ' :: ' ' :: rcurl :: rest) hk hv
      (by exact ⟨by decide, by decide, by decide, by decide⟩)]
    rw [skipWs_cons_of_ws _ _ (by decide), skipWs_cons_of_ws _ _ (by decide),
      skipWs_cons_of_ws _ _ (by decide), skipWs_cons_of_not _ _ (by decide)]
    simp only []
    rw [if_neg (by decide), if_pos (by trivial)]
  | cons q qs ih =>
    intro p fuel rest hk hv hqs hfuel
    obtain ⟨f, rfl⟩ : ∃ f, fuel = f + 2 := ⟨fuel - 2, by omega⟩
    rw [show pairsTail ['\n', ' ', ' ', rcurl] (q :: qs) ++ rest =
      ',' :: '\n' :: ' ' :: ' ' :: ' ' :: ' ' ::
        (printPair q ++ (pairsTail ['\n', ' ', ' ', rcurl] qs ++ rest)) from by
      rw [pairsTail]
      simp [List.append_assoc]]
    rw [jsonMembers_pair p f
      (',' :: '\n' :: ' ' :: ' ' :: ' ' :: ' ' ::
        (printPair q ++ (pairsTail ['\n', ' ', ' ', rcurl] qs ++ rest))) hk hv
      (by exact ⟨by decide, by decide, by decide, by decide⟩)]
    rw [skipWs_cons_of_not _ _ (by decide)]
    simp only []
    rw [if_pos (by trivial)]
    rw [skipWs_cons_of_ws _ _ (by decide), skipWs_cons_of_ws _ _ (by decide),
      skipWs_cons_of_ws _ _ (by decide), skipWs_cons_of_ws _ _ (by decide),
      skipWs_cons_of_ws _ _ (by decide)]
    have hpq : printPair q ++ (pairsTail ['\n', ' ', ' ', rcurl] qs ++ rest) =
        '\"' :: (escapeString q.1 ++ ('\"' :: ':' :: ' ' ::
          (printJVal q.2 ++ (pairsTail ['\n', ' ', ' ', rcurl] qs ++ rest)))) := by
      simp [printPair, List.append_assoc]
    rw [hpq, skipWs_cons_of_not _ _ (by decide), ← hpq]
    exact ih q (f + 1) rest (hqs q (List.mem_cons_self q qs)).1
      (hqs q (List.mem_cons_self q qs)).2
      (fun x hx => hqs x (List.mem_cons_of_mem q hx))
      (by simp only [List.length_cons] at hfuel; omega)

theorem jsonValue_event (e : Event) (fuel : Nat) (rest : List Char)
    (hwf : ∀ p ∈ e, ctrlFree p.1 ∧ jvalCtrlFree p.2)
    (hfuel : e.length + 2 ≤ fuel) :
    jsonSkip fuel .value (printEvent e ++ rest) = some rest := by
  obtain ⟨f, rfl⟩ : ∃ f, fuel = f + 1 := ⟨fuel - 1, by omega⟩
  cases e with
  | nil =>
    rw [show printEvent [] ++ rest = lcurl :: rcurl :: rest from rfl]
    rw [jsonSkip, skipWs_cons_of_not _ _ (by decide)]
    simp only []
    rw [if_pos (by trivial), skipWs_cons_of_not _ _ (by decide)]
    simp only []
    rw [if_pos (by trivial)]
  | cons p ps =>
    have htext : printEvent (p :: ps) ++ rest =
        lcurl :: '\n' :: ' ' :: ' ' :: ' ' :: ' ' ::
          (printPair p ++ (pairsTail ['\n', ' ', ' ', rcurl] ps ++ rest)) := by
      show ([lcurl, '\n'] ++
        joinSep [',', '\n'] ((p :: ps).map fun q =>
          [' ', ' ', ' ', ' '] ++ printPair q) ++
        ['\n', ' ', ' ', rcurl]) ++ rest = _
      rw [List.append_assoc [lcurl, '\n'],
        joinSep_pairs_eq_pairsTail ps p ['\n', ' ', ' ', rcurl]]
      simp [List.append_assoc]
    rw [htext, jsonSkip, skipWs_cons_of_not _ _ (by decide)]
    simp only []
    rw [if_pos (by trivial)]
    rw [skipWs_cons_of_ws _ _ (by decide), skipWs_cons_of_ws _ _ (by decide),
      skipWs_cons_of_ws _ _ (by decide), skipWs_cons_of_ws _ _ (by decide),
      skipWs_cons_of_ws _ _ (by decide)]
    have hpp : printPair p ++ (pairsTail ['\n', ' ', ' ', rcurl] ps ++ rest) =
        '\"' :: (escapeString p.1 ++ ('\"' :: ':' :: ' ' ::
          (printJVal p.2 ++ (pairsTail ['\n', ' ', ' ', rcurl] ps ++ rest)))) := by
      simp [printPair, List.append_assoc]
    rw [hpp, skipWs_cons_of_not _ _ (by decide)]
    simp only []
    rw [if_neg (by decide), ← hpp]
    exact jsonMembers_accept ps p f rest (hwf p (List.mem_cons_self p ps)).1
      (hwf p (List.mem_cons_self p ps)).2
      (fun q hq => hwf q (List.mem_cons_of_mem p hq))
      (by simp only [List.length_cons] at hfuel; omega)

theorem elemsFuel_ge (e : Event) (es : List Event) : 3 ≤ elemsFuel e es := by
  cases es with
  | nil => simp [elemsFuel]
  | cons e2 es2 =>
    simp only [elemsFuel, le_max_iff]
    omega

theorem jsonElems_accept (es : List Event) :
    ∀ e fuel rest,
      (∀ p ∈ e, ctrlFree p.1 ∧ jvalCtrlFree p.2) →
      (∀ x ∈ es, ∀ p ∈ x, ctrlFree p.1 ∧ jvalCtrlFree p.2) →
      elemsFuel e es ≤ fuel →
      jsonSkip fuel .elems
        (printEvent e ++ (itemsTail ['\n', ']'] es ++ rest)) = some rest := by
  induction es with
  | nil =>
    intro e fuel rest hwe _ hfuel
    have h3 := elemsFuel_ge e []
    obtain ⟨f, rfl⟩ : ∃ f, fuel = f + 1 := ⟨fuel - 1, by omega⟩
    rw [jsonSkip, jsonValue_event e f _ hwe
      (by simp only [elemsFuel] at hfuel; omega)]
    simp only []
    rw [show itemsTail ['\n', ']'] [] ++ rest = '\n' :: ']' :: rest from rfl]
    rw [skipWs_cons_of_ws _ _ (by decide), skipWs_cons_of_not _ _ (by decide)]
    simp only []
    rw [if_neg (by decide), if_pos (by trivial)]
  | cons e2 es2 ih =>
    intro e fuel rest hwe hwes hfuel
    have h3 := elemsFuel_ge e2 es2
    have hmax : e.length + 3 ≤ fuel ∧ 1 + elemsFuel e2 es2 ≤ fuel := by
      simp only [elemsFuel, max_le_iff] at hfuel
      exact hfuel
    obtain ⟨f2, rfl⟩ : ∃ k, fuel = k + 2 + 1 := ⟨fuel - 3, by omega⟩
    rw [jsonSkip, jsonValue_event e (f2 + 2) _ hwe (by omega)]
    simp only []
    rw [show itemsTail ['\n', ']'] (e2 :: es2) ++ rest =
      ',' :: '\n' :: ' ' :: ' ' ::
        (printEvent e2 ++ (itemsTail ['\n', ']'] es2 ++ rest)) from by
      rw [itemsTail]
      simp [List.append_assoc]]
    rw [skipWs_cons_of_not _ _ (by decide)]
    simp only []
    rw [if_pos (by trivial)]
    rw [jsonSkip_elems_ws f2 _ _ (by decide), jsonSkip_elems_ws f2 _ _ (by decide),
      jsonSkip_elems_ws f2 _ _ (by decide)]
    exact ih e2 (f2 + 2) rest (hwes e2 (List.mem_cons_self e2 es2))
      (fun x hx => hwes x (List.mem_cons_of_mem e2 hx)) (by omega)

theorem printEvent_length_ge_two (e : Event) :
    e.length + 2 ≤ (printEvent e).length := by
  cases e with
  | nil => simp [printEvent]
  | cons p ps =>
    have hcount := joinSep_length_ge_count [',', '\n']
      ((p :: ps).map fun q => [' ', ' ', ' ', ' '] ++ printPair q)
      (by intro x hx; simp only [List.mem_map] at hx; obtain ⟨q, -, rfl⟩ := hx; simp)
    have hpe : printEvent (p :: ps) = [lcurl, '\n'] ++
        joinSep [',', '\n'] ((p :: ps).map fun q =>
          [' ', ' ', ' ', ' '] ++ printPair q) ++ ['\n', ' ', ' ', rcurl] := by
      simp [printEvent]
    rw [hpe]
    simp only [List.length_append, List.length_map, List.length_cons,
      List.length_nil] at hcount ⊢
    omega

theorem elemsFuel_le (es : List Event) :
    ∀ e, elemsFuel e es ≤
      (printEvent e).length + (itemsTail ['\n', ']'] es).length := by
  induction es with
  | nil =>
    intro e
    have h1 := printEvent_length_ge_two e
    simp only [elemsFuel, itemsTail, List.length_cons, List.length_nil]
    omega
  | cons e2 es2 ih =>
    intro e
    have h1 := printEvent_length_ge_two e
    have h2 := ih e2
    simp only [elemsFuel, itemsTail, List.length_cons, List.length_append,
      max_le_iff]
    omega

theorem jsonTextValid_dump (events : List Event) (hwf : wfCatalog events) :
    jsonTextValid (dumpCatalog events) = true := by
  cases events with
  | nil => rfl
  | cons e es =>
    have hx : dumpChars (e :: es) =
        '[' :: '\n' :: ' ' :: ' ' ::
          (printEvent e ++ itemsTail ('\n' :: ']' :: []) es) := by
      show ['[', '\n'] ++
        joinSep [',', '\n'] ((e :: es).map fun x => [' ', ' '] ++ printEvent x) ++
        ['\n', ']'] = _
      rw [List.append_assoc,
        joinSep_items_eq_itemsTail es e ('\n' :: ']' :: [])]
      simp
    have hwe : ∀ p ∈ e, ctrlFree p.1 ∧ jvalCtrlFree p.2 :=
      (hwf e (List.mem_cons_self e es)).2
    have hwes : ∀ x ∈ es, ∀ p ∈ x, ctrlFree p.1 ∧ jvalCtrlFree p.2 :=
      fun x hx2 => (hwf x (List.mem_cons_of_mem e hx2)).2
    have hlen : (dumpCatalog (e :: es)).length = (dumpChars (e :: es)).length :=
      rfl
    have hdata : (dumpCatalog (e :: es)).data = dumpChars (e :: es) := rfl
    rw [jsonTextValid, hlen, hdata]
    obtain ⟨F, hF⟩ : ∃ F, 2 * (dumpChars (e :: es)).length + 2 = F + 1 :=
      ⟨2 * (dumpChars (e :: es)).length + 1, rfl⟩
    rw [hF, hx, jsonSkip, skipWs_cons_of_not _ _ (by decide)]
    simp only []
    rw [if_neg (by decide), if_pos (by trivial)]
    rw [skipWs_cons_of_ws _ _ (by decide), skipWs_cons_of_ws _ _ (by decide),
      skipWs_cons_of_ws _ _ (by decide)]
    obtain ⟨W, hW⟩ := printEvent_head e (itemsTail ('\n' :: ']' :: []) es)
    rw [hW, skipWs_cons_of_not _ _ (by decide)]
    simp only []
    rw [if_neg (by decide), ← hW]
    have helems : jsonSkip F .elems
        (printEvent e ++ (itemsTail ['\n', ']'] es ++ [])) = some [] := by
      refine jsonElems_accept es e F [] hwe hwes ?_
      have hb := elemsFuel_le es e
      have hlen2 : (dumpChars (e :: es)).length =
          4 + ((printEvent e).length + (itemsTail ('\n' :: ']' :: []) es).length) := by
        rw [hx]
        simp [List.length_append]
        omega
      omega
    rw [show itemsTail ('\n' :: ']' :: []) es =
      itemsTail ['\n', ']'] es ++ [] from by simp]
    rw [helems]
    rfl


/-- C7: `save_data` followed by `load_existing_data` reproduces the catalog
exactly — the same events in the same order with the same field values,
including non-ASCII text, which the UTF-8 serialization passes through
unescaped: the written bytes decode back to the written text, `json.load`
accepts that text, and it parses back to the original event list. -/
theorem save_load_round_trip (path : String) (events : List Event)
    (out : String) (hwf : wfCatalog events)
    (hsave : save_data path events = .ok out) :
    loadExistingData (some (strBytes out)) = .ok (some events, .loaded) := by
  have hout : out = dumpCatalog events := by
    rw [save_data] at hsave
    by_cases hd : dirname path = ""
    · rw [if_pos hd] at hsave
      cases hsave
    · rw [if_neg hd] at hsave
      exact ((Except.ok.injEq _ _).mp hsave).symm
  subst hout
  have hparse : parseCatalog (dumpCatalog events) = some events := by
    rw [parseCatalog]
    show parseCatalogChars ((dumpChars events).length + 1) (dumpChars events) =
      some events
    refine parseCatalogChars_dump events _ ?_ ?_
    · have := dumpChars_length_ge_count events
      omega
    · intro e he
      have := dumpChars_length_ge_event events e he
      omega
  have hjson := jsonTextValid_dump events hwf
  rw [loadExistingData, utf8Decode_strBytes]
  simp only []
  rw [if_pos hjson, hparse]

theorem save_load_round_trip_witness :
    loadExistingData (some (strBytes (dumpCatalog [evLatam]))) =
      .ok (some [evLatam], .loaded) :=
  save_load_round_trip "docs/events_data.json" [evLatam] (dumpCatalog [evLatam])
    (by decide) rfl

/-- C8 counterexample: an existing file whose bytes are not valid UTF-8 is
a fatal error.  Reading the file inside `json.load` raises
`UnicodeDecodeError`, and `load_existing_data` catches only
`json.JSONDecodeError`, so the exception escapes — the spec's "never a
fatal error" fails for byte-corrupt files. -/
theorem byte_corrupt_load_fatal :
    loadExistingData (some [255]) = .error .unicodeDecodeError := rfl

/-- C8 (amended): `load_existing_data` recovers from a missing file (empty
catalog, fresh start) and from any existing file whose decoded text
`json.load` rejects (recoverable warning, empty catalog) — but not from a
file whose bytes are not valid UTF-8: there the uncaught
`UnicodeDecodeError` escapes as a fatal error. -/
theorem load_missing_corrupt_or_fatal :
    loadExistingData none = .ok (some [], .fresh) ∧
    (∀ bytes s, utf8Decode bytes = some s → jsonTextValid s = false →
      loadExistingData (some bytes) = .ok (some [], .corrupt)) ∧
    ∀ bytes, utf8Decode bytes = none →
      loadExistingData (some bytes) = .error .unicodeDecodeError := by
  refine ⟨rfl, ?_, ?_⟩
  · intro bytes s hdec hjson
    rw [loadExistingData, hdec]
    simp only []
    rw [if_neg (by rw [hjson]; exact fun h => nomatch h)]
  · intro bytes hdec
    rw [loadExistingData, hdec]

theorem load_missing_corrupt_or_fatal_witness :
    loadExistingData (some (strBytes "\x7binvalid")) =
      .ok (some [], .corrupt) ∧
    loadExistingData (some [255]) = .error .unicodeDecodeError :=
  ⟨load_missing_corrupt_or_fatal.2.1 (strBytes "\x7binvalid") "\x7binvalid"
    rfl rfl,
   load_missing_corrupt_or_fatal.2.2 [255] rfl⟩